import Mathlib

/-!
# Verification of the Snowfriend client-side UI layer

Shallow embedding, in Lean 4, of the Snowfriend front-end JavaScript
(`static/js/chat.js`, `static/js/chatbot/chat_limit.js`, and the unnamed
chat-modals / chat-messages / auth files), restricted to the code the
checked properties are about:

* the modal stack manager (`modalStack.open` / `modalStack.close`),
* the message-limit UI (`updateMessageLimitUI`, `formatTime`),
* the email validation regex (`validateEmail`),
* the deletion-confirmation countdown guard (`isCountdownActive`),
* the fetch error handlers (catch blocks of `fetchMessageLimit`,
  `sendMessage`, the password-reset submit handler, `exportConversation`),
* the text-cleaning pipeline (`cleanMessageText` and its helpers), and
* the streaming response reader (`tryStreaming`).

Strings are modelled as `List Char`; JavaScript numbers that the code only
ever uses as integers are modelled as `Int` (or `Nat` where provably
non-negative).  Whitespace (`\s` in the JS regexes, `String.prototype.trim`)
is modelled by the ASCII whitespace characters the messages actually use.
DOM state touched by each function is modelled as an explicit record that
the embedded function transforms.
-/

namespace Snowfriend

/-! ## Generic helpers: JS whitespace, trim, split/join on newlines -/

/-- The whitespace characters of the JS `\s` class / `String.prototype.trim`
    that this embedding models (ASCII space, tab, newline, carriage return,
    vertical tab, form feed). -/
def isWs (c : Char) : Bool :=
  c = ' ' || c = '\t' || c = '\n' || c = '\r' || c = '\x0b' || c = '\x0c'

/-- `String.prototype.trim`: drop whitespace from both ends. -/
def jsTrim (l : List Char) : List Char :=
  ((l.dropWhile isWs).reverse.dropWhile isWs).reverse

/-- `text.split('\n')`: split on every newline, keeping empty pieces. -/
def splitLines (l : List Char) : List (List Char) :=
  match l with
  | [] => [[]]
  | c :: rest =>
      let r := splitLines rest
      if c = '\n' then [] :: r
      else
        match r with
        | [] => [[c]]
        | first :: others => (c :: first) :: others

/-- `lines.join('\n')`. -/
def joinLines (ls : List (List Char)) : List Char :=
  match ls with
  | [] => []
  | [l] => l
  | l :: rest => l ++ '\n' :: joinLines rest

theorem splitLines_cons (c : Char) (l : List Char) :
    splitLines (c :: l) =
      (if c = '\n' then [] :: splitLines l
       else
         match splitLines l with
         | [] => [[c]]
         | first :: others => (c :: first) :: others) := rfl

theorem splitLines_ne_nil (l : List Char) : splitLines l ≠ [] := by
  cases l with
  | nil => simp [splitLines]
  | cons c rest =>
      simp only [splitLines]
      cases h : splitLines rest with
      | nil => by_cases hc : c = '\n' <;> simp [hc]
      | cons a b => by_cases hc : c = '\n' <;> simp [hc]

theorem splitLines_append_newline (a b : List Char) (ha : '\n' ∉ a) :
    splitLines (a ++ '\n' :: b) = a :: splitLines b := by
  induction a with
  | nil => simp [splitLines]
  | cons c rest ih =>
      simp only [List.mem_cons, not_or] at ha
      rw [List.cons_append, splitLines_cons, ih ha.2]
      simp [Ne.symm ha.1]

theorem splitLines_no_newline (a : List Char) (ha : '\n' ∉ a) :
    splitLines a = [a] := by
  induction a with
  | nil => simp [splitLines]
  | cons c rest ih =>
      simp only [List.mem_cons, not_or] at ha
      rw [splitLines_cons, ih ha.2]
      simp [Ne.symm ha.1]

/-- `split` is a left inverse of `join` as long as no line contains a
    newline. -/
theorem splitLines_joinLines (ls : List (List Char)) (hne : ls ≠ [])
    (h : ∀ l ∈ ls, '\n' ∉ l) :
    splitLines (joinLines ls) = ls := by
  induction ls with
  | nil => exact absurd rfl hne
  | cons l rest ih =>
      cases rest with
      | nil =>
          simpa [joinLines] using splitLines_no_newline l (h l (by simp))
      | cons l' rest' =>
          have h1 : '\n' ∉ l := h l (by simp)
          simp only [joinLines]
          rw [splitLines_append_newline _ _ h1]
          rw [ih (by simp) (fun x hx => h x (List.mem_cons_of_mem _ hx))]

/-! ## Modal stack manager

`chat.js` lines 32–77 (and, with shorter console messages, the unnamed
chat-modals file lines 11–51):

```js
let modalStack = {
    count: 0,
    debug: false,
    open() {
        this.count++;
        if (this.debug) console.log(...);
        if (this.count === 1) {
            document.documentElement.style.overflow = 'hidden';
            document.body.style.overflow = 'hidden';
            ...
        }
    },
    close() {
        if (this.debug) console.log(...);
        this.count--;
        if (this.count < 0) {
            console.error('⚠️ Modal stack count went negative! ...');
            console.error('📊 Stack trace:');
            console.trace();
            this.count = 0;
        }
        if (this.count === 0) {
            document.documentElement.style.overflow = '';
            document.body.style.overflow = '';
        } else { ... }
    },
    ...
};
```

The page style and the console are modelled explicitly; `console` is the
list of messages emitted so far (most recent last).  `debug` is `false` in
the source, so the `console.log` debug branches emit nothing. -/

structure ModalState where
  count : Int
  htmlOverflow : String
  bodyOverflow : String
  console : List String
  debug : Bool
  deriving Repr, DecidableEq

def modalInit : ModalState :=
  { count := 0, htmlOverflow := "", bodyOverflow := "", console := [], debug := false }

/-- The console error messages emitted by `close()` when the count would go
    negative (the third entry stands for the `console.trace()` call). -/
def negativeCountMessages : List String :=
  ["⚠️ Modal stack count went negative! This indicates close() was called more times than open().",
   "📊 Stack trace:",
   "console.trace"]

def modalOpen (s : ModalState) : ModalState :=
  let c := s.count + 1
  let con := if s.debug then s.console ++ ["📖 Modal opened."] else s.console
  if c = 1 then
    { s with
      count := c
      htmlOverflow := "hidden"
      bodyOverflow := "hidden"
      console := if s.debug then con ++ ["🔒 Overflow hidden (first modal)"] else con }
  else
    { s with count := c, console := con }

def modalClose (s : ModalState) : ModalState :=
  let con0 := if s.debug then s.console ++ ["📕 Modal closing."] else s.console
  let c0 := s.count - 1
  let c := if c0 < 0 then 0 else c0
  let con := if c0 < 0 then con0 ++ negativeCountMessages else con0
  if c = 0 then
    { s with
      count := c
      htmlOverflow := ""
      bodyOverflow := ""
      console := if s.debug then con ++ ["🔓 Overflow restored (all modals closed)"] else con }
  else
    { s with
      count := c
      console := if s.debug then con ++ ["🔒 Overflow still hidden"] else con }

inductive ModalOp where
  | opn
  | cls
  deriving Repr, DecidableEq

def modalStep (s : ModalState) : ModalOp → ModalState
  | ModalOp.opn => modalOpen s
  | ModalOp.cls => modalClose s

def runModalOps (ops : List ModalOp) (s : ModalState) : ModalState :=
  ops.foldl modalStep s

/-- The invariant maintained by the modal stack starting from its initial
    state: the count is non-negative, overflow is `hidden` exactly when the
    count is positive, and debug logging is off. -/
def ModalInv (s : ModalState) : Prop :=
  0 ≤ s.count ∧
  s.htmlOverflow = (if 0 < s.count then "hidden" else "") ∧
  s.bodyOverflow = (if 0 < s.count then "hidden" else "") ∧
  s.debug = false

theorem modalInv_init : ModalInv modalInit := by
  refine ⟨le_refl 0, ?_, ?_, rfl⟩ <;> simp [modalInit]

theorem modalInv_open {s : ModalState} (h : ModalInv s) : ModalInv (modalOpen s) := by
  obtain ⟨h0, hh, hb, hd⟩ := h
  unfold modalOpen
  by_cases h1 : s.count + 1 = 1
  · simp only [hd, Bool.false_eq_true, if_false, h1, if_true]
    exact ⟨by simp, by simp, by simp, by simp [hd]⟩
  · simp only [hd, Bool.false_eq_true, if_false, h1]
    have hpos : 0 < s.count := by omega
    have hpos' : 0 < s.count + 1 := by omega
    refine ⟨by simp; omega, ?_, ?_, by simp [hd]⟩
    · simpa [hpos'] using by simpa [hpos] using hh
    · simpa [hpos'] using by simpa [hpos] using hb

theorem modalInv_close {s : ModalState} (h : ModalInv s) : ModalInv (modalClose s) := by
  obtain ⟨h0, hh, hb, hd⟩ := h
  unfold modalClose
  by_cases hneg : s.count - 1 < 0
  · simp only [hd, Bool.false_eq_true, if_false, hneg, if_true, if_pos rfl]
    exact ⟨by simp, by simp, by simp, by simp [hd]⟩
  · by_cases hz : s.count - 1 = 0
    · simp only [hd, Bool.false_eq_true, if_false, if_neg hneg, hz, if_pos rfl]
      exact ⟨by simp, by simp, by simp, by simp [hd]⟩
    · simp only [hd, Bool.false_eq_true, if_false, if_neg hneg, if_neg hz]
      have hpos : 0 < s.count - 1 := by omega
      have hpos' : 0 < s.count := by omega
      refine ⟨by simp; omega, ?_, ?_, by simp [hd]⟩
      · simpa [hpos] using by simpa [hpos'] using hh
      · simpa [hpos] using by simpa [hpos'] using hb

theorem modalInv_step {s : ModalState} (h : ModalInv s) (op : ModalOp) :
    ModalInv (modalStep s op) := by
  cases op
  · exact modalInv_open h
  · exact modalInv_close h

theorem modalInv_run (ops : List ModalOp) {s : ModalState} (h : ModalInv s) :
    ModalInv (runModalOps ops s) := by
  induction ops generalizing s with
  | nil => exact h
  | cons op rest ih => exact ih (modalInv_step h op)

/-- Closing at count 0 clamps the count to 0 and appends the console
    error messages. -/
theorem modalClose_at_zero {s : ModalState} (hd : s.debug = false)
    (h0 : s.count = 0) :
    (modalClose s).count = 0 ∧
    (modalClose s).console = s.console ++ negativeCountMessages := by
  unfold modalClose
  simp only [hd, Bool.false_eq_true, if_false, h0]
  norm_num

theorem modalOpen_count (s : ModalState) : (modalOpen s).count = s.count + 1 := by
  unfold modalOpen
  by_cases h : s.count + 1 = 1 <;> simp [h]

theorem modalClose_count (s : ModalState) :
    (modalClose s).count = if s.count - 1 < 0 then 0 else s.count - 1 := by
  unfold modalClose
  by_cases hneg : s.count - 1 < 0
  · simp [hneg]
  · by_cases hz : s.count - 1 = 0 <;> simp [hneg, hz]

/-- **C1.** The modal stack counter is never negative: starting from count 0,
after any sequence of `modalStack.open()` / `modalStack.close()` calls the
count is ≥ 0; a `close()` at count 0 clamps the count to exactly 0 and logs
warning messages to the console; and the stack does not halt — any further
sequence of open/close calls runs from the resulting state (in particular an
`open()` right after a clamped `close()` brings the count to 1). -/
theorem modal_count_never_negative :
    (∀ ops : List ModalOp, 0 ≤ (runModalOps ops modalInit).count) ∧
    (∀ ops : List ModalOp,
      (runModalOps ops modalInit).count = 0 →
        (modalClose (runModalOps ops modalInit)).count = 0 ∧
        (modalClose (runModalOps ops modalInit)).console
          = (runModalOps ops modalInit).console ++ negativeCountMessages) ∧
    (∀ ops ops' : List ModalOp,
      runModalOps (ops ++ ops') modalInit
        = runModalOps ops' (runModalOps ops modalInit)) ∧
    (∀ ops : List ModalOp,
      (runModalOps ops modalInit).count = 0 →
        (modalOpen (modalClose (runModalOps ops modalInit))).count = 1) := by
  have hinv : ∀ ops : List ModalOp, ModalInv (runModalOps ops modalInit) :=
    fun ops => modalInv_run ops modalInv_init
  refine ⟨fun ops => (hinv ops).1, fun ops h0 => ?_, fun ops ops' => List.foldl_append _ _ _ _, fun ops h0 => ?_⟩
  · exact modalClose_at_zero (hinv ops).2.2.2 h0
  · rw [modalOpen_count, modalClose_count, h0]
    norm_num

theorem modal_count_never_negative_witness :
    (runModalOps [ModalOp.opn, ModalOp.cls] modalInit).count = 0 ∧
    (modalClose (runModalOps [ModalOp.opn, ModalOp.cls] modalInit)).count = 0 ∧
    (modalClose (runModalOps [ModalOp.opn, ModalOp.cls] modalInit)).console
      = (runModalOps [ModalOp.opn, ModalOp.cls] modalInit).console ++ negativeCountMessages :=
  ⟨by decide,
   modal_count_never_negative.2.1 [ModalOp.opn, ModalOp.cls] (by decide)⟩

/-- **C5.** The modal stack counter drives the page scroll lock: after any
sequence of open/close calls starting from count 0, the page overflow style
(on both `documentElement` and `body`) is `"hidden"` exactly when the count
is positive; moreover `open()` at count 0 hides overflow, `close()` at
count 1 restores it to `""`, and open/close calls that keep the count
positive leave the overflow style unchanged. -/
theorem modal_overflow_tracks_count :
    (∀ ops : List ModalOp,
      ((runModalOps ops modalInit).htmlOverflow = "hidden"
          ↔ 0 < (runModalOps ops modalInit).count) ∧
      ((runModalOps ops modalInit).bodyOverflow = "hidden"
          ↔ 0 < (runModalOps ops modalInit).count) ∧
      ((runModalOps ops modalInit).count ≤ 0 →
        (runModalOps ops modalInit).htmlOverflow = "" ∧
        (runModalOps ops modalInit).bodyOverflow = "")) ∧
    (∀ s : ModalState, ModalInv s →
      (s.count = 0 →
        (modalOpen s).htmlOverflow = "hidden" ∧ (modalOpen s).bodyOverflow = "hidden") ∧
      (s.count = 1 →
        (modalClose s).htmlOverflow = "" ∧ (modalClose s).bodyOverflow = "") ∧
      (0 < s.count →
        (modalOpen s).htmlOverflow = s.htmlOverflow ∧
        (modalOpen s).bodyOverflow = s.bodyOverflow) ∧
      (1 < s.count →
        (modalClose s).htmlOverflow = s.htmlOverflow ∧
        (modalClose s).bodyOverflow = s.bodyOverflow)) := by
  have hover : ∀ s : ModalState, ModalInv s →
      (s.htmlOverflow = "hidden" ↔ 0 < s.count) ∧
      (s.bodyOverflow = "hidden" ↔ 0 < s.count) ∧
      (s.count ≤ 0 → s.htmlOverflow = "" ∧ s.bodyOverflow = "") := by
    intro s hs
    obtain ⟨h0, hh, hb, _⟩ := hs
    by_cases hpos : 0 < s.count
    · simp [hh, hb, hpos]
    · refine ⟨by simp [hh, hpos], by simp [hb, hpos], fun _ => ⟨by simp [hh, hpos], by simp [hb, hpos]⟩⟩
  constructor
  · intro ops
    exact hover _ (modalInv_run ops modalInv_init)
  · intro s hs
    have hsO := modalInv_open hs
    have hsC := modalInv_close hs
    obtain ⟨_, hh, hb, _⟩ := hs
    refine ⟨?_, ?_, ?_, ?_⟩
    · intro h0
      have h1 : 0 < (modalOpen s).count := by rw [modalOpen_count]; omega
      exact ⟨((hover _ hsO).1).2 h1, ((hover _ hsO).2.1).2 h1⟩
    · intro h1
      have h0 : (modalClose s).count ≤ 0 := by rw [modalClose_count]; omega
      exact (hover _ hsC).2.2 h0
    · intro hpos
      have h1 : 0 < (modalOpen s).count := by rw [modalOpen_count]; omega
      have e1 := ((hover _ hsO).1).2 h1
      have e2 := ((hover _ hsO).2.1).2 h1
      rw [e1, e2, hh, hb]
      simp [hpos]
    · intro hpos
      have h1 : 0 < (modalClose s).count := by rw [modalClose_count]; split <;> omega
      have e1 := ((hover _ hsC).1).2 h1
      have e2 := ((hover _ hsC).2.1).2 h1
      rw [e1, e2, hh, hb]
      simp [show 0 < s.count by omega]

theorem modal_overflow_tracks_count_witness :
    ((runModalOps [ModalOp.opn] modalInit).htmlOverflow = "hidden"
        ↔ 0 < (runModalOps [ModalOp.opn] modalInit).count) ∧
    (modalInit.count = 0 → (modalOpen modalInit).htmlOverflow = "hidden"
        ∧ (modalOpen modalInit).bodyOverflow = "hidden") :=
  ⟨(modal_overflow_tracks_count.1 [ModalOp.opn]).1,
   fun _ => (modal_overflow_tracks_count.2 modalInit modalInv_init).1 (by decide)⟩

/-! ## `formatTime`

`chat_limit.js` lines 173–179 (identical in `chat.js` lines 1366–1372):

```js
function formatTime(seconds) {
    if (seconds <= 0) return '00:00:00';
    const hours = Math.floor(seconds / 3600);
    const minutes = Math.floor((seconds % 3600) / 60);
    const secs = seconds % 60;
    return `...${String(hours).padStart(2, '0')}:...`;
}
```

`String(n)` for a non-negative integer is modelled by `jsNatString`
(decimal rendering without sign), `padStart` by `padStart`. -/

def digitChar (d : Nat) : Char :=
  match d with
  | 0 => '0' | 1 => '1' | 2 => '2' | 3 => '3' | 4 => '4'
  | 5 => '5' | 6 => '6' | 7 => '7' | 8 => '8' | _ => '9'

def natDigitsAux (n : Nat) (acc : List Char) : List Char :=
  if n = 0 then acc
  else natDigitsAux (n / 10) (digitChar (n % 10) :: acc)
  termination_by n
  decreasing_by exact Nat.div_lt_self (Nat.pos_of_ne_zero (by assumption)) (by norm_num)

/-- JS `String(n)` for a non-negative integer `n`. -/
def jsNatString (n : Nat) : List Char :=
  if n = 0 then ['0'] else natDigitsAux n []

/-- JS `str.padStart(len, pad)`. -/
def padStart (len : Nat) (pad : Char) (s : List Char) : List Char :=
  if len ≤ s.length then s else List.replicate (len - s.length) pad ++ s

/-- `formatTime` from `chat_limit.js` / `chat.js`, on integer inputs. -/
def formatTime (seconds : Int) : List Char :=
  if seconds ≤ 0 then "00:00:00".data
  else
    let s := seconds.toNat
    let hours := s / 3600
    let minutes := (s % 3600) / 60
    let secs := s % 60
    padStart 2 '0' (jsNatString hours) ++ ':' ::
      (padStart 2 '0' (jsNatString minutes) ++ ':' :: padStart 2 '0' (jsNatString secs))

/-! Specification-side decimal parsing, used to state that the rendered
blocks denote the right numbers. -/

def isDigitChar (c : Char) : Bool := '0' ≤ c && c ≤ '9'

def digitVal (c : Char) : Nat := c.toNat - 48

def parseNatFrom (a : Nat) (l : List Char) : Nat :=
  l.foldl (fun acc c => 10 * acc + digitVal c) a

def parseNat (l : List Char) : Nat := parseNatFrom 0 l

theorem digitVal_digitChar {d : Nat} (h : d < 10) : digitVal (digitChar d) = d := by
  interval_cases d <;> rfl

theorem isDigitChar_digitChar {d : Nat} (h : d < 10) : isDigitChar (digitChar d) = true := by
  interval_cases d <;> rfl

theorem natDigitsAux_unfold (n : Nat) (acc : List Char) :
    natDigitsAux n acc =
      if n = 0 then acc else natDigitsAux (n / 10) (digitChar (n % 10) :: acc) := by
  rw [natDigitsAux]

theorem natDigitsAux_append (n : Nat) (acc : List Char) :
    natDigitsAux n acc = natDigitsAux n [] ++ acc := by
  induction n using Nat.strong_induction_on generalizing acc with
  | _ n ih =>
      by_cases h : n = 0
      · rw [natDigitsAux_unfold n acc, natDigitsAux_unfold n [], if_pos h, if_pos h]
        simp
      · rw [natDigitsAux_unfold n acc, natDigitsAux_unfold n [], if_neg h, if_neg h]
        have hlt : n / 10 < n := Nat.div_lt_self (Nat.pos_of_ne_zero h) (by norm_num)
        rw [ih _ hlt (digitChar (n % 10) :: acc), ih _ hlt [digitChar (n % 10)]]
        simp

theorem parseNatFrom_append (a : Nat) (l₁ l₂ : List Char) :
    parseNatFrom a (l₁ ++ l₂) = parseNatFrom (parseNatFrom a l₁) l₂ :=
  List.foldl_append _ _ _ _

theorem parseNatFrom_natDigitsAux (n a : Nat) :
    parseNatFrom a (natDigitsAux n []) = a * 10 ^ (natDigitsAux n []).length + n := by
  induction n using Nat.strong_induction_on generalizing a with
  | _ n ih =>
      by_cases h : n = 0
      · simp [natDigitsAux, h, parseNatFrom]
      · rw [natDigitsAux, if_neg h, natDigitsAux_append]
        have hlt : n / 10 < n := Nat.div_lt_self (Nat.pos_of_ne_zero h) (by norm_num)
        rw [parseNatFrom_append, ih _ hlt a]
        have hd : digitVal (digitChar (n % 10)) = n % 10 :=
          digitVal_digitChar (Nat.mod_lt _ (by norm_num))
        simp only [parseNatFrom, List.foldl_cons, List.foldl_nil, hd,
          List.length_append, List.length_cons, List.length_nil]
        rw [pow_succ]
        have : n = 10 * (n / 10) + n % 10 := (Nat.div_add_mod n 10).symm
        ring_nf
        omega

theorem parseNat_jsNatString (n : Nat) : parseNat (jsNatString n) = n := by
  by_cases h : n = 0
  · simp [jsNatString, h, parseNat, parseNatFrom, digitVal]
  · rw [jsNatString, if_neg h]
    simpa [parseNat] using parseNatFrom_natDigitsAux n 0

theorem jsNatString_digits (n : Nat) : ∀ c ∈ jsNatString n, isDigitChar c = true := by
  by_cases h : n = 0
  · simp [jsNatString, h, isDigitChar]
  · rw [jsNatString, if_neg h]
    have : ∀ m acc, (∀ c ∈ acc, isDigitChar c = true) →
        ∀ c ∈ natDigitsAux m acc, isDigitChar c = true := by
      intro m
      induction m using Nat.strong_induction_on with
      | _ m ihm =>
          intro acc hacc c hc
          by_cases hm : m = 0
          · rw [natDigitsAux, if_pos hm] at hc
            exact hacc c hc
          · rw [natDigitsAux, if_neg hm] at hc
            have hlt : m / 10 < m := Nat.div_lt_self (Nat.pos_of_ne_zero hm) (by norm_num)
            refine ihm _ hlt _ ?_ c hc
            intro c' hc'
            rcases List.mem_cons.1 hc' with h' | h'
            · rw [h']; exact isDigitChar_digitChar (Nat.mod_lt _ (by norm_num))
            · exact hacc c' h'
    exact this n [] (by simp)

theorem jsNatString_ne_nil (n : Nat) : jsNatString n ≠ [] := by
  by_cases h : n = 0
  · simp [jsNatString, h]
  · rw [jsNatString, if_neg h, natDigitsAux, if_neg h, natDigitsAux_append]
    simp

theorem parseNat_padStart (l : List Char) (k : Nat) :
    parseNat (padStart k '0' l) = parseNat l := by
  unfold padStart
  by_cases h : k ≤ l.length
  · simp [h]
  · rw [if_neg h]
    unfold parseNat
    rw [parseNatFrom_append]
    congr 1
    generalize k - l.length = m
    induction m with
    | zero => rfl
    | succ i ih =>
        rw [List.replicate_succ]
        simpa [parseNatFrom, digitVal] using ih

theorem padStart_length (l : List Char) (k : Nat) : k ≤ (padStart k '0' l).length := by
  unfold padStart
  by_cases h : k ≤ l.length
  · simp [h]
  · rw [if_neg h]
    simp
    omega

theorem padStart_digits (l : List Char) (k : Nat)
    (h : ∀ c ∈ l, isDigitChar c = true) :
    ∀ c ∈ padStart k '0' l, isDigitChar c = true := by
  unfold padStart
  by_cases hk : k ≤ l.length
  · simpa [hk] using h
  · rw [if_neg hk]
    intro c hc
    rcases List.mem_append.1 hc with h' | h'
    · rw [List.eq_of_mem_replicate h']; rfl
    · exact h c h'

/-- **C8.** `formatTime` is total on integers and returns a zero-padded
`HH:MM:SS` string: every integer `s ≤ 0` yields `"00:00:00"`, and every
`s > 0` yields three colon-separated blocks of decimal digits, each at
least two characters long, denoting `⌊s/3600⌋`, `⌊(s mod 3600)/60⌋` and
`s mod 60` respectively. -/
theorem formatTime_spec (sec : Int) :
    (sec ≤ 0 → formatTime sec = "00:00:00".data) ∧
    (0 < sec → ∃ hs ms ss : List Char,
      formatTime sec = hs ++ ':' :: (ms ++ ':' :: ss) ∧
      2 ≤ hs.length ∧ 2 ≤ ms.length ∧ 2 ≤ ss.length ∧
      (∀ c ∈ hs, isDigitChar c = true) ∧
      (∀ c ∈ ms, isDigitChar c = true) ∧
      (∀ c ∈ ss, isDigitChar c = true) ∧
      parseNat hs = sec.toNat / 3600 ∧
      parseNat ms = sec.toNat % 3600 / 60 ∧
      parseNat ss = sec.toNat % 60) := by
  constructor
  · intro h
    simp [formatTime, h]
  · intro h
    have hne : ¬ sec ≤ 0 := by omega
    refine ⟨padStart 2 '0' (jsNatString (sec.toNat / 3600)),
            padStart 2 '0' (jsNatString (sec.toNat % 3600 / 60)),
            padStart 2 '0' (jsNatString (sec.toNat % 60)), ?_, ?_, ?_, ?_, ?_, ?_, ?_, ?_, ?_, ?_⟩
    · simp [formatTime, hne]
    · exact padStart_length _ 2
    · exact padStart_length _ 2
    · exact padStart_length _ 2
    · exact padStart_digits _ 2 (jsNatString_digits _)
    · exact padStart_digits _ 2 (jsNatString_digits _)
    · exact padStart_digits _ 2 (jsNatString_digits _)
    · rw [parseNat_padStart, parseNat_jsNatString]
    · rw [parseNat_padStart, parseNat_jsNatString]
    · rw [parseNat_padStart, parseNat_jsNatString]

theorem formatTime_spec_witness :
    formatTime (-5) = "00:00:00".data ∧
    (∃ hs ms ss : List Char,
      formatTime 3661 = hs ++ ':' :: (ms ++ ':' :: ss) ∧
      2 ≤ hs.length ∧ 2 ≤ ms.length ∧ 2 ≤ ss.length ∧
      (∀ c ∈ hs, isDigitChar c = true) ∧
      (∀ c ∈ ms, isDigitChar c = true) ∧
      (∀ c ∈ ss, isDigitChar c = true) ∧
      parseNat hs = (3661 : Int).toNat / 3600 ∧
      parseNat ms = (3661 : Int).toNat % 3600 / 60 ∧
      parseNat ss = (3661 : Int).toNat % 60) :=
  ⟨(formatTime_spec (-5)).1 (by norm_num),
   (formatTime_spec 3661).2 (by norm_num)⟩

/-! ## `validateEmail`

Unnamed auth file (`part_000`), twice (password-reset modal lines 59–62 and
login/register form lines 183–186):

```js
const validateEmail = (email) => {
    const re = /^[^\s@]+@[^\s@]+\.[^\s@]+$/;
    return re.test(email.toLowerCase());
};
```

Both character classes exclude `@`, so the regex accepts exactly the strings
of the form `local ++ "@" ++ domain` where `local` is a nonempty run of
non-whitespace non-`@` characters and `domain` is a nonempty run of
non-whitespace non-`@` characters containing a `.` that is neither its first
nor its last character (`[^\s@]+ \. [^\s@]+` with `.` allowed inside both
runs).  `validateEmail` decides that language directly on the lowercased
input. -/

def emailAtomChar (c : Char) : Bool := !(isWs c) && c ≠ '@'

def validateEmail (email : List Char) : Bool :=
  let s := email.map Char.toLower
  let localPart := s.takeWhile (· ≠ '@')
  let rest := s.dropWhile (· ≠ '@')
  match rest with
  | '@' :: domain =>
      !localPart.isEmpty && localPart.all emailAtomChar &&
      !domain.isEmpty && domain.all emailAtomChar &&
      ((domain.drop 1).dropLast).contains '.'
  | _ => false

/-- **C4.** The email validation regex accepts `user@example.com` and
rejects `user@example`. -/
theorem validateEmail_examples :
    validateEmail "user@example.com".data = true ∧
    validateEmail "user@example".data = false := by
  constructor <;> rfl

/-! ## Message-limit UI

`chat_limit.js` lines 85–114 (`chat.js` lines 1286–1316 are the same logic
with a longer blocked-input placeholder):

```js
function updateMessageLimitUI() {
    const messagesLeftElement = document.getElementById('messagesLeft');
    ...
    if (messagesLeftElement) {
        messagesLeftElement.textContent = window.messageLimitState.remaining;
        messageCounter.classList.remove('counter-zero', 'counter-low', 'counter-half');
        if (window.messageLimitState.remaining === 0) {
            messageCounter.classList.add('counter-zero');
        } else if (window.messageLimitState.remaining <= 3) {
            messageCounter.classList.add('counter-low');
        } else if (window.messageLimitState.remaining <= window.messageLimitState.total / 2) {
            messageCounter.classList.add('counter-half');
        }
    }
    if (!window.messageLimitState.canSend) {
        sendButton.disabled = true;
        messageInput.disabled = true;
        const resetTimeStr = getResetTimeString(window.messageLimitState.timeRemaining);
        messageInput.placeholder = `You can chat Snowfriend again at ${resetTimeStr}`;
    } else {
        messageInput.disabled = false;
        messageInput.placeholder = "Type what's on your mind…";
    }
}
```

`total / 2` is JS float division; on integers `remaining <= total / 2` is
`2 * remaining ≤ total`.  `getResetTimeString` reads the wall clock, so its
result is passed in as the parameter `resetStr`.  Note the `else` branch
does not touch `sendButton.disabled`. -/

structure MessageLimitState where
  total : Int
  remaining : Int
  canSend : Bool
  timeRemaining : Int
  deriving Repr, DecidableEq

structure LimitDom where
  messagesLeftPresent : Bool
  messagesLeftText : List Char
  counterClasses : List String
  sendDisabled : Bool
  inputDisabled : Bool
  inputPlaceholder : List Char
  deriving Repr, DecidableEq

/-- JS `String(i)` for an integer (as assigned to `textContent`). -/
def jsIntString (i : Int) : List Char :=
  if i < 0 then '-' :: jsNatString (-i).toNat else jsNatString i.toNat

def counterKindClasses : List String := ["counter-zero", "counter-low", "counter-half"]

def updateMessageLimitUI (st : MessageLimitState) (resetStr : List Char)
    (dom : LimitDom) : LimitDom :=
  let dom :=
    if dom.messagesLeftPresent then
      let classes := dom.counterClasses.filter (fun c => !counterKindClasses.contains c)
      let classes :=
        if st.remaining = 0 then classes ++ ["counter-zero"]
        else if st.remaining ≤ 3 then classes ++ ["counter-low"]
        else if 2 * st.remaining ≤ st.total then classes ++ ["counter-half"]
        else classes
      { dom with
        messagesLeftText := jsIntString st.remaining
        counterClasses := classes }
    else dom
  if !st.canSend then
    { dom with
      sendDisabled := true
      inputDisabled := true
      inputPlaceholder := "You can chat Snowfriend again at ".data ++ resetStr }
  else
    { dom with
      inputDisabled := false
      inputPlaceholder := "Type what\x27s on your mind…".data }

/-- A concrete DOM state used by the counterexample below. -/
def limitDom0 : LimitDom :=
  { messagesLeftPresent := true
    messagesLeftText := []
    counterClasses := []
    sendDisabled := false
    inputDisabled := false
    inputPlaceholder := [] }

/-- **C3, counterexample.** A message-limit state with `remaining = 0` but
`canSend = true` (the fields are set independently from the server response)
leaves both the send button and the message input enabled after
`updateMessageLimitUI` runs, so "remaining = 0 implies disabled" is false as
a statement about every message-limit state. -/
theorem updateMessageLimitUI_zero_remaining_not_disabled :
    (updateMessageLimitUI
        { total := 15, remaining := 0, canSend := true, timeRemaining := 0 }
        [] limitDom0).sendDisabled = false ∧
    (updateMessageLimitUI
        { total := 15, remaining := 0, canSend := true, timeRemaining := 0 }
        [] limitDom0).inputDisabled = false := by
  constructor <;> rfl

/-- **C3, amended.** `updateMessageLimitUI` drives the disabled state from
`canSend`, not from `remaining`: when `canSend` is false both the send
button and the message input are disabled (and the blocked placeholder is
shown); when `canSend` is true the input is enabled and the send button is
left as it was; independently, when `remaining = 0` and the counter element
is present, the `counter-zero` class is set. -/
theorem updateMessageLimitUI_disables_iff_canSend (st : MessageLimitState)
    (resetStr : List Char) (dom : LimitDom) :
    (st.canSend = false →
      (updateMessageLimitUI st resetStr dom).sendDisabled = true ∧
      (updateMessageLimitUI st resetStr dom).inputDisabled = true ∧
      (updateMessageLimitUI st resetStr dom).inputPlaceholder
        = "You can chat Snowfriend again at ".data ++ resetStr) ∧
    (st.canSend = true →
      (updateMessageLimitUI st resetStr dom).inputDisabled = false ∧
      (updateMessageLimitUI st resetStr dom).sendDisabled = dom.sendDisabled) ∧
    (st.remaining = 0 → dom.messagesLeftPresent = true →
      "counter-zero" ∈ (updateMessageLimitUI st resetStr dom).counterClasses) := by
  refine ⟨fun hc => ?_, fun hc => ?_, fun hr hp => ?_⟩
  · unfold updateMessageLimitUI
    simp only [hc]
    by_cases hp : dom.messagesLeftPresent <;> simp [hp]
  · unfold updateMessageLimitUI
    simp only [hc]
    by_cases hp : dom.messagesLeftPresent <;> simp [hp]
  · unfold updateMessageLimitUI
    simp only [hp, if_true, hr, if_pos rfl]
    by_cases hc : st.canSend <;> simp [hc]

theorem updateMessageLimitUI_disables_iff_canSend_witness :
    ((updateMessageLimitUI
        { total := 15, remaining := 0, canSend := false, timeRemaining := 60 }
        "6:00 AM".data limitDom0).sendDisabled = true ∧
      (updateMessageLimitUI
        { total := 15, remaining := 0, canSend := false, timeRemaining := 60 }
        "6:00 AM".data limitDom0).inputDisabled = true ∧
      (updateMessageLimitUI
        { total := 15, remaining := 0, canSend := false, timeRemaining := 60 }
        "6:00 AM".data limitDom0).inputPlaceholder
          = "You can chat Snowfriend again at ".data ++ "6:00 AM".data) ∧
    "counter-zero" ∈ (updateMessageLimitUI
        { total := 15, remaining := 0, canSend := false, timeRemaining := 60 }
        "6:00 AM".data limitDom0).counterClasses :=
  ⟨(updateMessageLimitUI_disables_iff_canSend _ _ _).1 rfl,
   (updateMessageLimitUI_disables_iff_canSend
      { total := 15, remaining := 0, canSend := false, timeRemaining := 60 }
      "6:00 AM".data limitDom0).2.2 rfl rfl⟩

/-! ## Fetch error handlers

The `catch` blocks of the four cited fetch-based operations, modelled as the
list of observable effects each one performs when the `fetch`/parse fails:

* `chat_limit.js` lines 77–79 (`fetchMessageLimit`):
  `console.error('Error fetching message limit:', error);` — nothing else;
* `chat.js` lines 1235–1241 (`sendMessage`): `console.error(...)`,
  `typingIndicator.remove()`, `appendMessage('Sorry, ...', 'bot')`,
  `isTyping = false`, `updateSendButton()`;
* `part_000` lines 173–177 (password-reset submit): `console.error(...)`,
  `sendResetButton.classList.remove('loading')`, `showError('Unable to send
  reset link. Please try again later.')` (an inline field error);
* `chat.js` lines 545–548 (`exportConversation`): `console.error(...)`,
  `showNotification('Network error while exporting', 'error')` (a toast).

None of the four catch blocks issues another `fetch`, which the effect
vocabulary makes expressible as the absence of `retryFetch`. -/

inductive UiEffect where
  | consoleError (msg : List Char)
  | toast (msg : List Char) (kind : List Char)
  | inlineFieldError (msg : List Char)
  | appendBotMessage (msg : List Char)
  | removeTypingIndicator
  | removeLoadingClass
  | setTypingFlag (b : Bool)
  | updateSendButtonUi
  | retryFetch
  deriving Repr, DecidableEq

def isUserVisibleToastOrInline : UiEffect → Bool
  | UiEffect.toast _ _ => true
  | UiEffect.inlineFieldError _ => true
  | _ => false

def isRetry : UiEffect → Bool
  | UiEffect.retryFetch => true
  | _ => false

/-- Catch block of `fetchMessageLimit` (`chat_limit.js` 77–79, identical in
`chat.js` 1281–1283). -/
def fetchMessageLimitCatch : List UiEffect :=
  [UiEffect.consoleError "Error fetching message limit:".data]

/-- Catch block of `sendMessage` (`chat.js` 1235–1241). -/
def sendMessageCatch : List UiEffect :=
  [UiEffect.consoleError "Error sending message:".data,
   UiEffect.removeTypingIndicator,
   UiEffect.appendBotMessage "Sorry, I\x27m having trouble connecting. Please try again.".data,
   UiEffect.setTypingFlag false,
   UiEffect.updateSendButtonUi]

/-- Catch block of the password-reset form submit handler (`part_000`
173–177). -/
def passwordResetCatch : List UiEffect :=
  [UiEffect.consoleError "Password reset error:".data,
   UiEffect.removeLoadingClass,
   UiEffect.inlineFieldError "Unable to send reset link. Please try again later.".data]

/-- Catch block of `exportConversation` (`chat.js` 545–548). -/
def exportConversationCatch : List UiEffect :=
  [UiEffect.consoleError "Error exporting:".data,
   UiEffect.toast "Network error while exporting".data "error".data]

/-- **C6, counterexample.** The claim says every network/parse failure of
the fetch-based operations is surfaced as a user-visible toast notification
or inline field error.  The `fetchMessageLimit` failure handler is a
concrete counterexample: it emits no toast and no inline field error (it
only logs to the console), so a failed limit fetch is never surfaced to the
user. -/
theorem fetchMessageLimitCatch_not_surfaced :
    fetchMessageLimitCatch.all (fun e => !isUserVisibleToastOrInline e) = true ∧
    fetchMessageLimitCatch
      = [UiEffect.consoleError "Error fetching message limit:".data] := by
  constructor <;> rfl

/-- **C6, amended.** Every network/parse failure of the cited fetch-based
operations is caught locally and never retried (no handler issues another
fetch); the password-reset failure is surfaced as an inline field error, the
export failure as a toast, and the send-message failure as an in-chat bot
message, while the limit-fetch failure is only logged to the console. -/
theorem fetchFailureHandlers_local_no_retry :
    (fetchMessageLimitCatch.all (fun e => !isRetry e) = true ∧
     sendMessageCatch.all (fun e => !isRetry e) = true ∧
     passwordResetCatch.all (fun e => !isRetry e) = true ∧
     exportConversationCatch.all (fun e => !isRetry e) = true) ∧
    (UiEffect.inlineFieldError
        "Unable to send reset link. Please try again later.".data ∈ passwordResetCatch) ∧
    (UiEffect.toast "Network error while exporting".data "error".data
        ∈ exportConversationCatch) ∧
    (UiEffect.appendBotMessage
        "Sorry, I\x27m having trouble connecting. Please try again.".data ∈ sendMessageCatch) ∧
    (fetchMessageLimitCatch.all
        (fun e => !isUserVisibleToastOrInline e) = true ∧
     UiEffect.consoleError "Error fetching message limit:".data ∈ fetchMessageLimitCatch) := by
  refine ⟨⟨rfl, rfl, rfl, rfl⟩, ?_, ?_, ?_, rfl, ?_⟩ <;> simp [passwordResetCatch,
    exportConversationCatch, sendMessageCatch, fetchMessageLimitCatch]

/-! ## Deletion-confirmation modal and the `isCountdownActive` guard

`chat.js`: `resetConfirmationButton` (611–641), `closeConfirmationModal`
(796–822), `closeModal` (131–141), `closeFullscreenPreview` (378–388), the
`cancelConfirmation` click handler (1726–1735), the `confirmationModal`
overlay click handler (1740–1750) and the master Escape keydown handler
(1776–1816).

The 300 ms `setTimeout` callbacks that remove the `show`/`closing` classes
after a close are modelled by `pending…Hide` flags (the class removal has
been scheduled but not yet run); everything up to the timeout is modelled
synchronously, which is how the browser runs it. -/

structure ConfirmUi where
  isCountdownActive : Bool
  confirmShow : Bool
  confirmClosing : Bool
  fullscreenShow : Bool
  fullscreenClosing : Bool
  exportShow : Bool
  exportClosing : Bool
  clearShow : Bool
  clearClosing : Bool
  stack : ModalState
  countdownTimerRunning : Bool
  cancelHandlerAttached : Bool
  mainHandlerAttached : Bool
  confirmBtnText : List Char
  confirmBtnDisabled : Bool
  cancelBtnHidden : Bool
  pendingConfirmHide : Bool
  pendingFullscreenHide : Bool
  pendingExportHide : Bool
  pendingClearHide : Bool
  deriving Repr, DecidableEq

def resetConfirmationButton (s : ConfirmUi) : ConfirmUi :=
  { s with
    countdownTimerRunning := false
    cancelHandlerAttached := false
    confirmBtnText := "Yes, Delete Everything".data
    confirmBtnDisabled := false
    cancelBtnHidden := false
    mainHandlerAttached := true }

def closeConfirmationModal (s : ConfirmUi) : ConfirmUi :=
  let s := { s with countdownTimerRunning := false, cancelHandlerAttached := false }
  { s with
    confirmClosing := true
    stack := modalClose s.stack
    pendingConfirmHide := true }

def closeFullscreenPreview (s : ConfirmUi) : ConfirmUi :=
  { s with
    fullscreenClosing := true
    stack := modalClose s.stack
    pendingFullscreenHide := true }

def closeExportModal (s : ConfirmUi) : ConfirmUi :=
  { s with
    exportClosing := true
    stack := modalClose s.stack
    pendingExportHide := true }

def closeClearModal (s : ConfirmUi) : ConfirmUi :=
  { s with
    clearClosing := true
    stack := modalClose s.stack
    pendingClearHide := true }

/-- The `cancelConfirmation` click handler (`chat.js` 1726–1735). -/
def cancelConfirmationClick (s : ConfirmUi) : ConfirmUi :=
  if s.isCountdownActive then s
  else closeConfirmationModal (resetConfirmationButton s)

/-- The `confirmationModal` overlay click handler (`chat.js` 1740–1750);
`targetIsOverlay` is `e.target === confirmationModal`. -/
def confirmationOverlayClick (s : ConfirmUi) (targetIsOverlay : Bool) : ConfirmUi :=
  if targetIsOverlay then
    if s.isCountdownActive then s else closeConfirmationModal s
  else s

/-- The master Escape keydown handler (`chat.js` 1776–1816). -/
def escapeKeydown (s : ConfirmUi) : ConfirmUi :=
  if s.fullscreenShow && !s.fullscreenClosing then closeFullscreenPreview s
  else if s.confirmShow && !s.confirmClosing then
    (if s.isCountdownActive then s
     else closeConfirmationModal (resetConfirmationButton s))
  else if s.exportShow && !s.exportClosing then closeExportModal s
  else if s.clearShow && !s.clearClosing then closeClearModal s
  else s

/-- **C7.** While `isCountdownActive` is true and the deletion-confirmation
modal is open (shown and not already closing), neither the cancel button,
nor a click anywhere on the confirmation modal overlay, nor the Escape key
closes it: the cancel and overlay handlers leave the entire UI state —
including the modal's `show` class and the modal stack count — unchanged,
and the Escape handler likewise leaves the state unchanged provided the
fullscreen preview (which has higher Escape priority) is not itself open;
in every case Escape preserves the confirmation modal's `show` class and
the countdown guard. -/
theorem countdown_guard_blocks_confirmation_close (s : ConfirmUi)
    (hc : s.isCountdownActive = true)
    (hs : s.confirmShow = true)
    (hcl : s.confirmClosing = false) :
    cancelConfirmationClick s = s ∧
    (∀ b : Bool, confirmationOverlayClick s b = s) ∧
    (s.fullscreenShow = false ∨ s.fullscreenClosing = true → escapeKeydown s = s) ∧
    (escapeKeydown s).confirmShow = true ∧
    (escapeKeydown s).isCountdownActive = true ∧
    (escapeKeydown s).pendingConfirmHide = s.pendingConfirmHide := by
  have hcancel : cancelConfirmationClick s = s := by
    unfold cancelConfirmationClick
    rw [if_pos hc]
  have hoverlay : ∀ b : Bool, confirmationOverlayClick s b = s := by
    intro b
    unfold confirmationOverlayClick
    cases b
    · rfl
    · simp [hc]
  by_cases hf : s.fullscreenShow = true ∧ s.fullscreenClosing = false
  · have hesc : escapeKeydown s = closeFullscreenPreview s := by
      unfold escapeKeydown
      rw [if_pos (by simp [hf.1, hf.2])]
    refine ⟨hcancel, hoverlay, fun h => ?_, ?_, ?_, ?_⟩
    · rcases h with h | h
      · simp [hf.1] at h
      · simp [hf.2] at h
    · rw [hesc]; exact hs
    · rw [hesc]; exact hc
    · rw [hesc]; rfl
  · have hesc : escapeKeydown s = s := by
      unfold escapeKeydown
      have hff : (s.fullscreenShow && !s.fullscreenClosing) = false := by
        rcases Bool.eq_false_or_eq_true s.fullscreenShow with h | h
        · rcases Bool.eq_false_or_eq_true s.fullscreenClosing with h' | h'
          · simp [h']
          · exact absurd ⟨h, h'⟩ hf
        · simp [h]
      rw [hff, if_neg (by simp), if_pos (by simp [hs, hcl]), if_pos hc]
    exact ⟨hcancel, hoverlay, fun _ => hesc, by rw [hesc]; exact hs,
      by rw [hesc]; exact hc, by rw [hesc]⟩

/-- A concrete UI state: countdown active, confirmation modal open,
fullscreen preview closed. -/
def confirmUi0 : ConfirmUi :=
  { isCountdownActive := true
    confirmShow := true
    confirmClosing := false
    fullscreenShow := false
    fullscreenClosing := false
    exportShow := false
    exportClosing := false
    clearShow := true
    clearClosing := false
    stack := { count := 2, htmlOverflow := "hidden", bodyOverflow := "hidden",
               console := [], debug := false }
    countdownTimerRunning := true
    cancelHandlerAttached := true
    mainHandlerAttached := false
    confirmBtnText := "Undo? 5".data
    confirmBtnDisabled := false
    cancelBtnHidden := true
    pendingConfirmHide := false
    pendingFullscreenHide := false
    pendingExportHide := false
    pendingClearHide := false }

theorem countdown_guard_blocks_confirmation_close_witness :
    cancelConfirmationClick confirmUi0 = confirmUi0 ∧
    escapeKeydown confirmUi0 = confirmUi0 :=
  ⟨(countdown_guard_blocks_confirmation_close confirmUi0 rfl rfl rfl).1,
   (countdown_guard_blocks_confirmation_close confirmUi0 rfl rfl rfl).2.2.1 (Or.inl rfl)⟩

/-! ## `replaceAsterisksInText`

`chat.js` lines 944–960 (identical in `part_004` lines 85–97):

```js
const replaceAsterisksInText = (text) => {
    const pattern = /\*([^*]+)\*/g;
    return text.replace(pattern, (match, content) => {
        const wordCount = content.trim().split(/\s+/).length;
        if (wordCount <= 2) {
            return `'${content}'`;
        } else {
            return `"${content}"`;
        }
    });
};
```

The global regex scan walks left to right; at a `*` it matches when the
(maximal, nonempty) run of non-`*` characters after it is followed by
another `*`, and otherwise advances one character.  `content.trim()
.split(/\s+/).length` is the number of maximal non-whitespace runs of the
trimmed content, except that JS gives `[''].length = 1` for whitespace-only
content (`jsWordCount` reproduces that artifact). -/

/-- Number of maximal non-whitespace runs; `inWord` says whether the scan
is currently inside such a run. -/
def countRuns (l : List Char) (inWord : Bool) : Nat :=
  match l with
  | [] => 0
  | c :: rest =>
      if isWs c then countRuns rest false
      else (if inWord then 0 else 1) + countRuns rest true

/-- Whitespace-separated word count of `l` (specification side). -/
def numWords (l : List Char) : Nat := countRuns l false

/-- JS `content.trim().split(/\s+/).length`. -/
def jsWordCount (content : List Char) : Nat :=
  if jsTrim content = [] then 1 else numWords (jsTrim content)

/-- The replacement callback: 1–2 words get single quotes, 3+ get double
quotes. -/
def quoteSpan (content : List Char) : List Char :=
  if jsWordCount content ≤ 2
  then '\'' :: (content ++ ['\''])
  else '"' :: (content ++ ['"'])

def notStar (c : Char) : Bool := c ≠ '*'

theorem length_dropWhile_le_len (p : Char → Bool) (l : List Char) :
    (l.dropWhile p).length ≤ l.length := by
  induction l with
  | nil => simp [List.dropWhile]
  | cons c rest ih =>
      rw [List.dropWhile]
      by_cases h : p c
      · simp only [h, if_true]
        exact Nat.le_succ_of_le ih
      · simp [h]

def replaceAsterisksInText (l : List Char) : List Char :=
  match l with
  | [] => []
  | c :: rest =>
      if c = '*' then
        let content := rest.takeWhile notStar
        let rest' := rest.dropWhile notStar
        if content.isEmpty || rest'.isEmpty then '*' :: replaceAsterisksInText rest
        else quoteSpan content ++ replaceAsterisksInText (rest'.drop 1)
      else c :: replaceAsterisksInText rest
  termination_by l.length
  decreasing_by
  · simp
  · simp only [List.length_cons, List.length_drop]
    have h1 : (rest.dropWhile notStar).length ≤ rest.length :=
      length_dropWhile_le_len notStar rest
    omega
  · simp

theorem takeWhile_append_stop {p : Char → Bool} (a : List Char) (b : Char) (c : List Char)
    (ha : ∀ x ∈ a, p x = true) (hb : p b = false) :
    (a ++ b :: c).takeWhile p = a := by
  induction a with
  | nil => simp [List.takeWhile, hb]
  | cons x xs ih =>
      have hx : p x = true := ha x (by simp)
      simp only [List.cons_append, List.takeWhile, hx]
      exact congrArg (List.cons x) (ih (fun y hy => ha y (by simp [hy])))

theorem dropWhile_append_stop {p : Char → Bool} (a : List Char) (b : Char) (c : List Char)
    (ha : ∀ x ∈ a, p x = true) (hb : p b = false) :
    (a ++ b :: c).dropWhile p = b :: c := by
  induction a with
  | nil => simp [List.dropWhile, hb]
  | cons x xs ih =>
      have hx : p x = true := ha x (by simp)
      simp only [List.cons_append, List.dropWhile, hx]
      exact ih (fun y hy => ha y (by simp [hy]))

theorem replaceAsterisksInText_no_star (t : List Char) (h : '*' ∉ t) :
    replaceAsterisksInText t = t := by
  induction t with
  | nil => rw [replaceAsterisksInText]
  | cons c rest ih =>
      simp only [List.mem_cons, not_or] at h
      rw [replaceAsterisksInText]
      simp only [if_neg (Ne.symm h.1)]
      rw [ih h.2]

theorem jsWordCount_le_two_iff (content : List Char) :
    (jsWordCount content ≤ 2) ↔ numWords (jsTrim content) ≤ 2 := by
  unfold jsWordCount
  by_cases h : jsTrim content = []
  · simp [h, numWords, countRuns]
  · simp [h]

theorem replaceAsterisksInText_span (pre content suf : List Char)
    (hpre : '*' ∉ pre) (hcontent : '*' ∉ content) (hne : content ≠ []) :
    replaceAsterisksInText (pre ++ '*' :: (content ++ '*' :: suf))
      = pre ++
        ((if numWords (jsTrim content) ≤ 2
          then '\'' :: (content ++ ['\''])
          else '"' :: (content ++ ['"'])) ++
         replaceAsterisksInText suf) := by
  induction pre with
  | nil =>
      simp only [List.nil_append]
      rw [replaceAsterisksInText]
      have hall : ∀ x ∈ content, notStar x = true := by
        intro x hx
        simp only [notStar, ne_eq, decide_eq_true_eq]
        intro hEq
        exact hcontent (hEq ▸ hx)
      have hstop : notStar '*' = false := by simp [notStar]
      rw [if_pos rfl]
      simp only [takeWhile_append_stop content '*' suf hall hstop,
        dropWhile_append_stop content '*' suf hall hstop]
      rw [show (content.isEmpty || (('*' :: suf : List Char)).isEmpty) = false by
        cases content with
        | nil => exact absurd rfl hne
        | cons a as => rfl]
      simp only [Bool.false_eq_true, if_false, List.drop_one, List.tail_cons]
      unfold quoteSpan
      by_cases hw : numWords (jsTrim content) ≤ 2
      · rw [if_pos ((jsWordCount_le_two_iff content).mpr hw), if_pos hw]
      · rw [if_neg (fun h => hw ((jsWordCount_le_two_iff content).mp h)), if_neg hw]
  | cons c cs ih =>
      simp only [List.mem_cons, not_or] at hpre
      simp only [List.cons_append]
      rw [replaceAsterisksInText]
      simp only [if_neg (Ne.symm hpre.1)]
      rw [ih hpre.2]

/-- **C9.** `replaceAsterisksInText` rewrites every maximal asterisk-
delimited span `*content*` (nonempty content without asterisks) and leaves
all other characters unchanged: scanning left to right, a prefix without
asterisks is emitted verbatim, the span becomes the content in single
quotes when its trimmed content has at most 2 whitespace-separated words
and in double quotes when it has 3 or more, and the scan continues on the
remainder; text containing no asterisk is returned unchanged. -/
theorem replaceAsterisksInText_spec :
    (∀ t : List Char, '*' ∉ t → replaceAsterisksInText t = t) ∧
    (∀ pre content suf : List Char, '*' ∉ pre → '*' ∉ content → content ≠ [] →
      replaceAsterisksInText (pre ++ '*' :: (content ++ '*' :: suf))
        = pre ++
          ((if numWords (jsTrim content) ≤ 2
            then '\'' :: (content ++ ['\''])
            else '"' :: (content ++ ['"'])) ++
           replaceAsterisksInText suf)) :=
  ⟨replaceAsterisksInText_no_star, replaceAsterisksInText_span⟩

theorem replaceAsterisksInText_spec_witness :
    replaceAsterisksInText "no stars here".data = "no stars here".data ∧
    replaceAsterisksInText ("ab ".data ++ '*' :: ("hi there".data ++ '*' :: "!".data))
      = "ab ".data ++
        (('\'' :: ("hi there".data ++ ['\''])) ++ replaceAsterisksInText "!".data) ∧
    replaceAsterisksInText ("c ".data ++ '*' :: ("one two three".data ++ '*' :: []))
      = "c ".data ++
        (('"' :: ("one two three".data ++ ['"'])) ++ replaceAsterisksInText []) := by
  refine ⟨replaceAsterisksInText_spec.1 _ (by decide), ?_, ?_⟩
  · have h := replaceAsterisksInText_spec.2 "ab ".data "hi there".data "!".data
      (by decide) (by decide) (by decide)
    rw [h, if_pos (by decide)]
  · have h := replaceAsterisksInText_spec.2 "c ".data "one two three".data []
      (by decide) (by decide) (by decide)
    rw [h, if_neg (by decide)]

/-! ## `cleanMessageText`

`chat.js` lines 872–924 (the variant in `part_004` lines 12–67 runs the same
steps after a few extra marker-removal `replace`s):

```js
const cleanMessageText = (text) => {
    if (!text) return '';
    text = text.replace(/❌.*ASTERISKS.*❌/g, '').trim();
    text = text.replace(/❌[^\n]*\n?/g, '').trim();
    text = replaceAsterisksWithQuotes(text);
    if (text.startsWith('(') && text.endsWith(')')) {
        if (!(text.includes("I'm here to listen") && text.includes("professional"))) {
            text = text.slice(1, -1).trim();
        }
    }
    const lines = text.split('\n');
    ... // strip each line, collapse inner whitespace, keep at most one
        // consecutive empty line
    text = cleanedLines.join('\n');
    text = fixBulletListSpacing(text);
    text = text.replace(/ +\./g, '.');
    text = text.replace(/ +\?/g, '?');
    text = text.replace(/ +!/g, '!');
    text = text.replace(/ +,/g, ',');
    return text.trim();
};
```

Regex notes (leftmost match, greedy, `.` does not cross `\n`):
`/❌.*ASTERISKS.*❌/` matches, from a `❌`, up to the *last* `❌` on the same
line, provided `ASTERISKS` occurs between them; `/❌[^\n]*\n?/` eats from a
`❌` to the end of the line including the newline; `/ +\./` turns every run
of spaces followed by `.` into just `.`; the disclaimer pattern
`/\*\([^)]*I'm here to listen[^)]*professional[^)]*\)\*/i` matches `*(`,
then the run up to the first `)` (which must contain the two phrases in
order, case-insensitively), then `)*`. -/

/-- `text.replace(/\s+/g, ' ')`. -/
def collapseWs (l : List Char) : List Char :=
  match l with
  | [] => []
  | c :: rest =>
      if isWs c then ' ' :: collapseWs (rest.dropWhile isWs)
      else c :: collapseWs rest
  termination_by l.length
  decreasing_by
  · have := length_dropWhile_le_len isWs rest
    simp only [List.length_cons]
    omega
  · simp

theorem length_takeWhile_le_len (p : Char → Bool) (l : List Char) :
    (l.takeWhile p).length ≤ l.length := by
  induction l with
  | nil => simp [List.takeWhile]
  | cons c rest ih =>
      rw [List.takeWhile]
      by_cases h : p c
      · simp only [h, if_true, List.length_cons]
        omega
      · simp [h]

/-- Boolean "`pat` occurs as a contiguous segment of the list". -/
def containsSeg (pat : List Char) : List Char → Bool
  | [] => pat.isEmpty
  | c :: rest => pat.isPrefixOf (c :: rest) || containsSeg pat rest

/-- `text.replace(/❌.*ASTERISKS.*❌/g, '')`.  At a `❌` the greedy match, if
any, runs to the last `❌` of the same line; the scan then resumes right
after it, i.e. on `rest.drop (line.length - revAfter.length)` where
`revAfter` is the reversed part of the line after its last `❌`. -/
def removeX1 (l : List Char) : List Char :=
  match l with
  | [] => []
  | c :: rest =>
      if c = '❌' then
        let line := rest.takeWhile (fun x => x ≠ '\n')
        let revLine := line.reverse
        let revAfter := revLine.takeWhile (fun x => x ≠ '❌')
        match revLine.dropWhile (fun x => x ≠ '❌') with
        | _ :: revBefore =>
            if containsSeg "ASTERISKS".data revBefore.reverse then
              removeX1 (rest.drop (line.length - revAfter.length))
            else c :: removeX1 rest
        | [] => c :: removeX1 rest
      else c :: removeX1 rest
  termination_by l.length
  decreasing_by
  all_goals simp only [List.length_cons, List.length_drop]
  all_goals omega

/-- `text.replace(/❌[^\n]*\n?/g, '')`. -/
def removeX2 (l : List Char) : List Char :=
  match l with
  | [] => []
  | c :: rest =>
      if c = '❌' then
        removeX2 ((rest.dropWhile (fun x => x ≠ '\n')).drop 1)
      else c :: removeX2 rest
  termination_by l.length
  decreasing_by
  · have h1 := length_dropWhile_le_len (fun x => decide (x ≠ '\n')) rest
    simp only [List.length_cons, List.length_drop]
    omega
  · simp

def placeholderChars : List Char := "<<<DISCLAIMER_PLACEHOLDER>>>".data

/-- JS `text.replace(pat, repl)` for a *string* pattern: replace the first
occurrence only. -/
def replaceFirst (pat repl : List Char) : List Char → List Char
  | [] => if pat.isEmpty then repl else []
  | c :: rest =>
      if pat.isPrefixOf (c :: rest) then repl ++ (c :: rest).drop pat.length
      else c :: replaceFirst pat repl rest

/-- The suffix following the first occurrence of `pat`, if any. -/
def afterFirstOccur (pat : List Char) : List Char → Option (List Char)
  | [] => if pat.isEmpty then some [] else none
  | c :: rest =>
      if pat.isPrefixOf (c :: rest) then some ((c :: rest).drop pat.length)
      else afterFirstOccur pat rest

/-- The `[^)]*I'm here to listen[^)]*professional[^)]*` core of the
disclaimer pattern (case-insensitive): the two phrases occur in order. -/
def disclaimerCond (content : List Char) : Bool :=
  let lc := content.map Char.toLower
  match afterFirstOccur "i\x27m here to listen".data lc with
  | some r => containsSeg "professional".data r
  | none => false

/-- Attempt the disclaimer pattern at the current position only. -/
def disclaimerHere (c : Char) (rest : List Char) : Option (List Char) :=
  match c, rest with
  | '*', '(' :: inner =>
      (let content := inner.takeWhile (fun x => x ≠ ')')
       match inner.dropWhile (fun x => x ≠ ')') with
       | ')' :: '*' :: _ =>
           if disclaimerCond content then
             some ('*' :: '(' :: (content ++ [')', '*']))
           else none
       | _ => none)
  | _, _ => none

/-- `text.match(/\*\([^)]*I'm here to listen[^)]*professional[^)]*\)\*/i)`:
the matched substring at the leftmost matching position, if any. -/
def disclaimerFind : List Char → Option (List Char)
  | [] => none
  | c :: rest =>
      match disclaimerHere c rest with
      | some d => some d
      | none => disclaimerFind rest

/-- `replaceAsterisksWithQuotes` (`chat.js` 926–941 / `part_004` 70–83). -/
def replaceAsterisksWithQuotes (t : List Char) : List Char :=
  if t.isEmpty || !t.contains '*' then t
  else
    match disclaimerFind t with
    | none => replaceAsterisksInText t
    | some d =>
        let t' := replaceFirst d placeholderChars t
        let p := replaceAsterisksInText t'
        replaceFirst placeholderChars d p

/-- The parenthesis-unwrapping step of `cleanMessageText`. -/
def parenStrip (t : List Char) : List Char :=
  if t.head? = some '(' && t.getLast? = some ')' then
    if containsSeg "I\x27m here to listen".data t && containsSeg "professional".data t then t
    else jsTrim ((t.drop 1).dropLast)
  else t

/-- The per-line cleanup loop of `cleanMessageText` (`consecutiveEmpty`
is the running count of empty lines just seen). -/
def cleanLinesGo (ls : List (List Char)) (ce : Nat) : List (List Char) :=
  match ls with
  | [] => []
  | l :: rest =>
      let s := jsTrim l
      if s.isEmpty then
        if ce + 1 ≤ 1 then [] :: cleanLinesGo rest (ce + 1)
        else cleanLinesGo rest (ce + 1)
      else collapseWs s :: cleanLinesGo rest 0

/-- `/^[-•*]\s/.test(ls) || /^\d+\.\s/.test(ls)`. -/
def isListItem (ls : List Char) : Bool :=
  (match ls with
   | c :: d :: _ => (c = '-' || c = '•' || c = '*') && isWs d
   | _ => false) ||
  (let digits := ls.takeWhile Char.isDigit
   !digits.isEmpty &&
   (match ls.dropWhile Char.isDigit with
    | '.' :: d :: _ => isWs d
    | _ => false))

def prevNonempty : Option (List Char) → Bool
  | none => false
  | some p => !(jsTrim p).isEmpty

/-- The loop of `fixBulletListSpacing`; `prev` is the last pushed line
(`fixedLines[fixedLines.length - 1]`, `none` before the first iteration —
which is also exactly when `i > 0` fails). -/
def fixBulletGo (ls : List (List Char)) (inList : Bool) (prev : Option (List Char)) :
    List (List Char) :=
  match ls with
  | [] => []
  | l :: rest =>
      let s := jsTrim l
      let item := isListItem s
      if item && !inList then
        (if prevNonempty prev then [[]] else []) ++ l :: fixBulletGo rest true (some l)
      else if !item && inList && !s.isEmpty then
        (if prevNonempty prev then [[]] else []) ++ l :: fixBulletGo rest false (some l)
      else
        l :: fixBulletGo rest inList (some l)

/-- `fixBulletListSpacing` (`chat.js` 963–995 / `part_004` 99–130). -/
def fixBulletListSpacing (t : List Char) : List Char :=
  if t.isEmpty then t
  else joinLines (fixBulletGo (splitLines t) false none)

/-- `text.replace(/ +p/g, p)` for a punctuation character `p`. -/
def stripSpacesBefore (p : Char) (l : List Char) : List Char :=
  match l with
  | [] => []
  | c :: rest =>
      if c = ' ' then
        let run := (c :: rest).takeWhile (fun x => x = ' ')
        match h : rest.dropWhile (fun x => x = ' ') with
        | q :: tail =>
            if q = p then p :: stripSpacesBefore p tail
            else run ++ stripSpacesBefore p (q :: tail)
        | [] => run
      else c :: stripSpacesBefore p rest
  termination_by l.length
  decreasing_by
  · have h1 := length_dropWhile_le_len (fun x => decide (x = ' ')) rest
    rw [h] at h1
    simp only [List.length_cons] at *
    omega
  · have h1 := length_dropWhile_le_len (fun x => decide (x = ' ')) rest
    rw [h] at h1
    simp only [List.length_cons] at *
    omega
  · simp

/-- `cleanMessageText` (`chat.js` 872–924). -/
def cleanMessageText (t : List Char) : List Char :=
  if t.isEmpty then []
  else
    let t1 := jsTrim (removeX1 t)
    let t2 := jsTrim (removeX2 t1)
    let t3 := replaceAsterisksWithQuotes t2
    let t4 := parenStrip t3
    let t5 := joinLines (cleanLinesGo (splitLines t4) 0)
    let t6 := fixBulletListSpacing t5
    let t7 := stripSpacesBefore ','
      (stripSpacesBefore '!' (stripSpacesBefore '?' (stripSpacesBefore '.' t6)))
    jsTrim t7

/-! ## Streaming response reader

The read loop of `tryStreaming` (`chat.js` lines 1395–1475; the `part_004`
variant at 561–691 handles the same `data.chunk` / `data.done` /
`data.error` protocol with extra media/marker branches).  Each complete
`data: {...}` line is modelled by a `StreamLine`; lines that are not
`data:`-prefixed, or whose JSON fails to parse (truncated chunks), are
`otherLine` and are skipped, matching the `SyntaxError → continue` branch:

```js
if (data.chunk) {
    fullResponse += data.chunk;
    if (!messageElement) { messageElement = createStreamingMessage(); }
    updateStreamingMessage(messageElement, fullResponse);
}
if (data.done) {
    if (messageElement) {
        const cleanedResponse = cleanMessageText(fullResponse);
        messageElement.textContent = cleanedResponse;
    }
    ...
    return true;
}
if (data.error) { throw new Error(data.error); }
```

`element` is the `textContent` of the streaming message element (`none`
while no element has been created); `finished` models the `return true`
after `done`; `failed` models the thrown error (caught by the outer
`catch`, which falls back to the non-streaming request). -/

inductive StreamLine where
  | chunkLine (s : List Char)
  | doneLine
  | errorLine (msg : List Char)
  | otherLine
  deriving Repr, DecidableEq

structure StreamState where
  fullResponse : List Char
  element : Option (List Char)
  finished : Bool
  failed : Bool
  deriving Repr, DecidableEq

def streamInit : StreamState :=
  { fullResponse := [], element := none, finished := false, failed := false }

def streamStep (st : StreamState) (l : StreamLine) : StreamState :=
  if st.finished || st.failed then st
  else
    match l with
    | StreamLine.chunkLine s =>
        if s.isEmpty then st
        else
          { st with
            fullResponse := st.fullResponse ++ s
            element := some (st.fullResponse ++ s) }
    | StreamLine.doneLine =>
        { st with
          element := st.element.map (fun _ => cleanMessageText st.fullResponse)
          finished := true }
    | StreamLine.errorLine _ => { st with failed := true }
    | StreamLine.otherLine => st

def runStream (ls : List StreamLine) : StreamState :=
  ls.foldl streamStep streamInit

/-- Concatenation, in arrival order, of the chunk fields received strictly
before the first done or error line. -/
def chunkConcat : List StreamLine → List Char
  | [] => []
  | StreamLine.chunkLine s :: rest => s ++ chunkConcat rest
  | StreamLine.doneLine :: _ => []
  | StreamLine.errorLine _ :: _ => []
  | StreamLine.otherLine :: rest => chunkConcat rest

theorem streamStep_frozen {st : StreamState} (h : st.finished = true ∨ st.failed = true)
    (l : StreamLine) : streamStep st l = st := by
  unfold streamStep
  rcases h with h | h <;> simp [h]

theorem foldl_streamStep_frozen {st : StreamState}
    (h : st.finished = true ∨ st.failed = true) (ls : List StreamLine) :
    ls.foldl streamStep st = st := by
  induction ls with
  | nil => rfl
  | cons l rest ih => rw [List.foldl_cons, streamStep_frozen h l, ih]

theorem stream_run_characterization (ls : List StreamLine) (st : StreamState)
    (hfin : st.finished = false) (hfail : st.failed = false)
    (helem : st.element = if st.fullResponse.isEmpty then none else some st.fullResponse) :
    (ls.foldl streamStep st).fullResponse = st.fullResponse ++ chunkConcat ls ∧
    ((ls.foldl streamStep st).finished = false → (ls.foldl streamStep st).failed = false →
      (ls.foldl streamStep st).element
        = if (ls.foldl streamStep st).fullResponse.isEmpty then none
          else some (ls.foldl streamStep st).fullResponse) ∧
    ((ls.foldl streamStep st).finished = true →
      (ls.foldl streamStep st).element
        = if (ls.foldl streamStep st).fullResponse.isEmpty then none
          else some (cleanMessageText (ls.foldl streamStep st).fullResponse)) := by
  induction ls generalizing st with
  | nil =>
      refine ⟨by simp [chunkConcat], fun _ _ => by simpa using helem, fun hf => ?_⟩
      simp only [List.foldl_nil] at hf
      rw [hfin] at hf
      exact absurd hf (by simp)
  | cons l rest ih =>
      have hnotfrozen : (st.finished || st.failed) = false := by simp [hfin, hfail]
      cases l with
      | chunkLine s =>
          rw [List.foldl_cons]
          by_cases hs : s.isEmpty
          · have hstep : streamStep st (StreamLine.chunkLine s) = st := by
              unfold streamStep
              simp [hnotfrozen, hs]
            rw [hstep]
            have hsnil : s = [] := by simpa using hs
            obtain ⟨h1, h2, h3⟩ := ih st hfin hfail helem
            exact ⟨by rw [h1]; simp [chunkConcat, hsnil], h2, h3⟩
          · have hstep : streamStep st (StreamLine.chunkLine s)
                = { st with
                    fullResponse := st.fullResponse ++ s
                    element := some (st.fullResponse ++ s) } := by
              unfold streamStep
              simp [hnotfrozen, hs]
            rw [hstep]
            have hne : (st.fullResponse ++ s).isEmpty = false := by
              cases s with
              | nil => simp at hs
              | cons a as => simp
            obtain ⟨h1, h2, h3⟩ := ih
              { st with
                fullResponse := st.fullResponse ++ s
                element := some (st.fullResponse ++ s) }
              hfin hfail (by simp [hne])
            refine ⟨?_, h2, h3⟩
            rw [h1]
            simp [chunkConcat]
      | doneLine =>
          rw [List.foldl_cons]
          have hstep : streamStep st StreamLine.doneLine
              = { st with
                  element := st.element.map (fun _ => cleanMessageText st.fullResponse)
                  finished := true } := by
            unfold streamStep
            simp [hnotfrozen]
          rw [hstep, foldl_streamStep_frozen (Or.inl rfl)]
          refine ⟨by simp [chunkConcat], fun hcontra _ => by simp at hcontra, fun _ => ?_⟩
          simp only []
          rw [helem]
          by_cases he : st.fullResponse.isEmpty <;> simp [he]
      | errorLine msg =>
          rw [List.foldl_cons]
          have hstep : streamStep st (StreamLine.errorLine msg) = { st with failed := true } := by
            unfold streamStep
            simp [hnotfrozen]
          rw [hstep, foldl_streamStep_frozen (Or.inr rfl)]
          exact ⟨by simp [chunkConcat], fun _ hcontra => by simp at hcontra,
            fun hcontra => by simp [hfin] at hcontra⟩
      | otherLine =>
          rw [List.foldl_cons]
          have hstep : streamStep st StreamLine.otherLine = st := by
            unfold streamStep
            simp [hnotfrozen]
          rw [hstep]
          obtain ⟨h1, h2, h3⟩ := ih st hfin hfail helem
          exact ⟨by rw [h1]; simp [chunkConcat], h2, h3⟩

/-- **C2, amended.** For every sequence of streamed `data:` lines, the
accumulated `fullResponse` equals the concatenation, in arrival order, of
every chunk field received before the done (or error) signal; while the
stream is still running the message element shows exactly that
concatenation (no element exists before the first nonempty chunk); and when
the done signal arrives, the final text placed into the message element is
`cleanMessageText` applied to that concatenation — not the raw
concatenation itself. -/
theorem tryStreaming_text_reconstruction (ls : List StreamLine) :
    (runStream ls).fullResponse = chunkConcat ls ∧
    ((runStream ls).finished = false → (runStream ls).failed = false →
      (runStream ls).element
        = if (chunkConcat ls).isEmpty then none else some (chunkConcat ls)) ∧
    ((runStream ls).finished = true →
      (runStream ls).element
        = if (chunkConcat ls).isEmpty then none
          else some (cleanMessageText (chunkConcat ls))) := by
  obtain ⟨h1, h2, h3⟩ := stream_run_characterization ls streamInit rfl rfl rfl
  have hfull : (runStream ls).fullResponse = chunkConcat ls := by
    rw [runStream, h1]
    rfl
  refine ⟨hfull, fun ha hb => ?_, fun ha => ?_⟩
  · have := h2 ha hb
    rw [runStream] at *
    rw [this, hfull.symm]
  · have := h3 ha
    rw [runStream] at *
    rw [this, hfull.symm]

/-! ## Identity and structure lemmas for the cleaning pipeline -/

/-- `b` occurs immediately after `a` somewhere in the list. -/
def hasPair (a b : Char) (l : List Char) : Bool :=
  match l with
  | [] => false
  | c :: rest => (c = a && rest.head? = some b) || hasPair a b rest

/-- some whitespace character occurs immediately before `b`. -/
def hasWsPair (b : Char) (l : List Char) : Bool :=
  match l with
  | [] => false
  | c :: rest => (isWs c && rest.head? = some b) || hasWsPair b rest

theorem hasPair_tail {a b c : Char} {rest : List Char}
    (h : hasPair a b (c :: rest) = false) : hasPair a b rest = false := by
  rw [hasPair] at h
  exact (Bool.or_eq_false_iff.mp h).2

theorem hasPair_of_suffix {a b : Char} {s l : List Char} (hs : s <:+ l)
    (h : hasPair a b l = false) : hasPair a b s = false := by
  induction l with
  | nil =>
      rw [List.suffix_nil] at hs
      rw [hs, hasPair]
  | cons c rest ih =>
      rcases hs with ⟨t, ht⟩
      cases t with
      | nil =>
          have hsl : s = c :: rest := by simpa using ht
          rw [hsl]
          exact h
      | cons x xs =>
          have : s <:+ rest := ⟨xs, by injection ht with _ h2⟩
          exact ih this (hasPair_tail h)

theorem jsTrim_subset (l : List Char) : ∀ x ∈ jsTrim l, x ∈ l := by
  intro x hx
  unfold jsTrim at hx
  rw [List.mem_reverse] at hx
  have h1 := (List.dropWhile_sublist (l := (l.dropWhile isWs).reverse) isWs).subset hx
  rw [List.mem_reverse] at h1
  exact (List.dropWhile_sublist isWs).subset h1

theorem jsTrim_nil : jsTrim [] = [] := rfl

theorem removeX1_id {l : List Char} (h : '❌' ∉ l) : removeX1 l = l := by
  induction l with
  | nil => rw [removeX1]
  | cons c rest ih =>
      simp only [List.mem_cons, not_or] at h
      rw [removeX1]
      simp only [if_neg (Ne.symm h.1)]
      rw [ih h.2]

theorem removeX2_id {l : List Char} (h : '❌' ∉ l) : removeX2 l = l := by
  induction l with
  | nil => rw [removeX2]
  | cons c rest ih =>
      simp only [List.mem_cons, not_or] at h
      rw [removeX2]
      simp only [if_neg (Ne.symm h.1)]
      rw [ih h.2]

theorem replaceAsterisksWithQuotes_id {l : List Char} (h : '*' ∉ l) :
    replaceAsterisksWithQuotes l = l := by
  have hc : l.contains '*' = false := by simpa using h
  simp only [replaceAsterisksWithQuotes, hc, Bool.not_false, Bool.or_true, if_true]

/-- If a run of spaces in `' ' :: rest` is followed by `q`, then `q` has a
space right before it. -/
theorem hasPair_space_of_dropWhile {q : Char} {rest tail : List Char}
    (h : rest.dropWhile (fun x => decide (x = ' ')) = q :: tail) :
    hasPair ' ' q (' ' :: rest) = true := by
  induction rest generalizing tail with
  | nil => simp [List.dropWhile] at h
  | cons e u ih =>
      rw [List.dropWhile_cons] at h
      by_cases he : e = ' '
      · subst he
        rw [if_pos (by simp)] at h
        rw [hasPair]
        rw [ih h]
        simp
      · rw [if_neg (by simpa using he)] at h
        injection h with h1 h2
        subst h1
        rw [hasPair]
        simp

theorem stripSpacesBefore_id {p : Char} {l : List Char}
    (h : hasPair ' ' p l = false) : stripSpacesBefore p l = l := by
  have main : ∀ n (l : List Char), l.length ≤ n → hasPair ' ' p l = false →
      stripSpacesBefore p l = l := by
    intro n
    induction n with
    | zero =>
        intro l hl _
        rw [List.length_eq_zero.mp (Nat.le_zero.mp hl)]
        rw [stripSpacesBefore]
    | succ m ih =>
        intro l hl hp
        cases l with
        | nil => rw [stripSpacesBefore]
        | cons c rest =>
            by_cases hc : c = ' '
            · subst hc
              rw [stripSpacesBefore]
              simp only [if_pos rfl]
              rcases hdw : rest.dropWhile (fun x => decide (x = ' ')) with _ | ⟨q, tail⟩
              · have : (' ' :: rest).takeWhile (fun x => decide (x = ' ')) = ' ' :: rest := by
                  conv_rhs => rw [← List.takeWhile_append_dropWhile
                    (p := fun x => decide (x = ' ')) (l := ' ' :: rest)]
                  rw [List.dropWhile_cons]
                  simp [hdw]
                exact this
              · have hq : q ≠ p := by
                  intro hqp
                  subst hqp
                  rw [hasPair_space_of_dropWhile hdw] at hp
                  exact absurd hp (by simp)
                simp only [if_neg hq]
                have hsuf : (q :: tail) <:+ (' ' :: rest) :=
                  (hdw ▸ List.dropWhile_suffix (fun x => decide (x = ' '))).trans
                    ((List.suffix_cons ' ' rest))
                have hlen : (q :: tail).length ≤ m := by
                  have h2 : (q :: tail).length ≤ rest.length := by
                    have := List.IsSuffix.length_le (hdw ▸ List.dropWhile_suffix
                      (p := fun x => decide (x = ' ')) (l := rest))
                    simpa using this
                  simp only [List.length_cons] at h2 hl ⊢
                  omega
                rw [ih _ hlen (hasPair_of_suffix hsuf hp)]
                show (' ' :: rest).takeWhile (fun x => decide (x = ' ')) ++ (q :: tail)
                    = ' ' :: rest
                conv_rhs => rw [← List.takeWhile_append_dropWhile
                  (p := fun x => decide (x = ' ')) (l := ' ' :: rest)]
                rw [List.dropWhile_cons]
                simp [hdw]
            · rw [stripSpacesBefore]
              simp only [if_neg hc]
              rw [ih rest (by simp only [List.length_cons] at hl; omega) (hasPair_tail hp)]
  exact main l.length l (le_refl _) h

/-! ## Concrete evaluations of `cleanMessageText` -/

theorem clean_eval_doubleSpace : cleanMessageText ['a', ' ', ' ', 'b'] = ['a', ' ', 'b'] := by
  have h1 : removeX1 ['a', ' ', ' ', 'b'] = ['a', ' ', ' ', 'b'] := removeX1_id (by decide)
  have h2 : jsTrim ['a', ' ', ' ', 'b'] = ['a', ' ', ' ', 'b'] := rfl
  have h3 : removeX2 ['a', ' ', ' ', 'b'] = ['a', ' ', ' ', 'b'] := removeX2_id (by decide)
  have h4 : replaceAsterisksWithQuotes ['a', ' ', ' ', 'b'] = ['a', ' ', ' ', 'b'] :=
    replaceAsterisksWithQuotes_id (by decide)
  have h5 : parenStrip ['a', ' ', ' ', 'b'] = ['a', ' ', ' ', 'b'] := by simp [parenStrip]
  have h6 : joinLines (cleanLinesGo (splitLines ['a', ' ', ' ', 'b']) 0) = ['a', ' ', 'b'] := by
    simp [splitLines, cleanLinesGo, joinLines, jsTrim, collapseWs, isWs]
  have h7 : fixBulletListSpacing ['a', ' ', 'b'] = ['a', ' ', 'b'] := by
    simp [fixBulletListSpacing, fixBulletGo, splitLines, joinLines, isListItem,
      jsTrim, isWs, prevNonempty]
  have h8a : stripSpacesBefore '.' ['a', ' ', 'b'] = ['a', ' ', 'b'] :=
    stripSpacesBefore_id (by decide)
  have h8b : stripSpacesBefore '?' ['a', ' ', 'b'] = ['a', ' ', 'b'] :=
    stripSpacesBefore_id (by decide)
  have h8c : stripSpacesBefore '!' ['a', ' ', 'b'] = ['a', ' ', 'b'] :=
    stripSpacesBefore_id (by decide)
  have h8d : stripSpacesBefore ',' ['a', ' ', 'b'] = ['a', ' ', 'b'] :=
    stripSpacesBefore_id (by decide)
  have h9 : jsTrim ['a', ' ', 'b'] = ['a', ' ', 'b'] := rfl
  simp only [cleanMessageText, List.isEmpty_cons, Bool.false_eq_true, if_false,
    h1, h2, h3, h4, h5, h6, h7, h8a, h8b, h8c, h8d, h9]

theorem clean_eval_doubleStar :
    cleanMessageText ['*', '*', 'a', '*', '*'] = ['*', '\x27', 'a', '\x27', '*'] := by
  have h1 : removeX1 ['*', '*', 'a', '*', '*'] = ['*', '*', 'a', '*', '*'] :=
    removeX1_id (by decide)
  have h2 : jsTrim ['*', '*', 'a', '*', '*'] = ['*', '*', 'a', '*', '*'] := rfl
  have h3 : removeX2 ['*', '*', 'a', '*', '*'] = ['*', '*', 'a', '*', '*'] :=
    removeX2_id (by decide)
  have h4 : replaceAsterisksWithQuotes ['*', '*', 'a', '*', '*']
      = ['*', '\x27', 'a', '\x27', '*'] := by
    simp [replaceAsterisksWithQuotes, disclaimerFind, disclaimerHere, disclaimerCond,
      afterFirstOccur, replaceAsterisksInText, notStar, quoteSpan, jsWordCount, jsTrim,
      numWords, countRuns, isWs, replaceFirst, placeholderChars]
  have h5 : parenStrip ['*', '\x27', 'a', '\x27', '*'] = ['*', '\x27', 'a', '\x27', '*'] := by
    simp [parenStrip]
  have h6 : joinLines (cleanLinesGo (splitLines ['*', '\x27', 'a', '\x27', '*']) 0)
      = ['*', '\x27', 'a', '\x27', '*'] := by
    simp [splitLines, cleanLinesGo, joinLines, jsTrim, collapseWs, isWs]
  have h7 : fixBulletListSpacing ['*', '\x27', 'a', '\x27', '*']
      = ['*', '\x27', 'a', '\x27', '*'] := by
    simp [fixBulletListSpacing, fixBulletGo, splitLines, joinLines, isListItem,
      jsTrim, isWs, prevNonempty]
  have h8a : stripSpacesBefore '.' ['*', '\x27', 'a', '\x27', '*']
      = ['*', '\x27', 'a', '\x27', '*'] := stripSpacesBefore_id (by decide)
  have h8b : stripSpacesBefore '?' ['*', '\x27', 'a', '\x27', '*']
      = ['*', '\x27', 'a', '\x27', '*'] := stripSpacesBefore_id (by decide)
  have h8c : stripSpacesBefore '!' ['*', '\x27', 'a', '\x27', '*']
      = ['*', '\x27', 'a', '\x27', '*'] := stripSpacesBefore_id (by decide)
  have h8d : stripSpacesBefore ',' ['*', '\x27', 'a', '\x27', '*']
      = ['*', '\x27', 'a', '\x27', '*'] := stripSpacesBefore_id (by decide)
  have h9 : jsTrim ['*', '\x27', 'a', '\x27', '*'] = ['*', '\x27', 'a', '\x27', '*'] := rfl
  simp only [cleanMessageText, List.isEmpty_cons, Bool.false_eq_true, if_false,
    h1, h2, h3, h4, h5, h6, h7, h8a, h8b, h8c, h8d, h9]

theorem clean_eval_starQuote :
    cleanMessageText ['*', '\x27', 'a', '\x27', '*'] = ['\x27', '\x27', 'a', '\x27', '\x27'] := by
  have h1 : removeX1 ['*', '\x27', 'a', '\x27', '*'] = ['*', '\x27', 'a', '\x27', '*'] :=
    removeX1_id (by decide)
  have h2 : jsTrim ['*', '\x27', 'a', '\x27', '*'] = ['*', '\x27', 'a', '\x27', '*'] := rfl
  have h3 : removeX2 ['*', '\x27', 'a', '\x27', '*'] = ['*', '\x27', 'a', '\x27', '*'] :=
    removeX2_id (by decide)
  have h4 : replaceAsterisksWithQuotes ['*', '\x27', 'a', '\x27', '*']
      = ['\x27', '\x27', 'a', '\x27', '\x27'] := by
    simp [replaceAsterisksWithQuotes, disclaimerFind, disclaimerHere, disclaimerCond,
      afterFirstOccur, replaceAsterisksInText, notStar, quoteSpan, jsWordCount, jsTrim,
      numWords, countRuns, isWs, replaceFirst, placeholderChars]
  have h5 : parenStrip ['\x27', '\x27', 'a', '\x27', '\x27']
      = ['\x27', '\x27', 'a', '\x27', '\x27'] := by
    simp [parenStrip]
  have h6 : joinLines (cleanLinesGo (splitLines ['\x27', '\x27', 'a', '\x27', '\x27']) 0)
      = ['\x27', '\x27', 'a', '\x27', '\x27'] := by
    simp [splitLines, cleanLinesGo, joinLines, jsTrim, collapseWs, isWs]
  have h7 : fixBulletListSpacing ['\x27', '\x27', 'a', '\x27', '\x27']
      = ['\x27', '\x27', 'a', '\x27', '\x27'] := by
    simp [fixBulletListSpacing, fixBulletGo, splitLines, joinLines, isListItem,
      jsTrim, isWs, prevNonempty]
  have h8a : stripSpacesBefore '.' ['\x27', '\x27', 'a', '\x27', '\x27']
      = ['\x27', '\x27', 'a', '\x27', '\x27'] := stripSpacesBefore_id (by decide)
  have h8b : stripSpacesBefore '?' ['\x27', '\x27', 'a', '\x27', '\x27']
      = ['\x27', '\x27', 'a', '\x27', '\x27'] := stripSpacesBefore_id (by decide)
  have h8c : stripSpacesBefore '!' ['\x27', '\x27', 'a', '\x27', '\x27']
      = ['\x27', '\x27', 'a', '\x27', '\x27'] := stripSpacesBefore_id (by decide)
  have h8d : stripSpacesBefore ',' ['\x27', '\x27', 'a', '\x27', '\x27']
      = ['\x27', '\x27', 'a', '\x27', '\x27'] := stripSpacesBefore_id (by decide)
  have h9 : jsTrim ['\x27', '\x27', 'a', '\x27', '\x27']
      = ['\x27', '\x27', 'a', '\x27', '\x27'] := rfl
  simp only [cleanMessageText, List.isEmpty_cons, Bool.false_eq_true, if_false,
    h1, h2, h3, h4, h5, h6, h7, h8a, h8b, h8c, h8d, h9]

/-- **C2, counterexample.** A single chunk `"a  b"` followed by the done
signal: the concatenation of the chunks is `"a  b"`, but the final text
placed into the message element is its cleaned form `"a b"` (inner
whitespace collapsed), so the final element text does not equal the raw
concatenation. -/
theorem streaming_final_text_not_raw_concat :
    chunkConcat [StreamLine.chunkLine ['a', ' ', ' ', 'b'], StreamLine.doneLine]
      = ['a', ' ', ' ', 'b'] ∧
    (runStream [StreamLine.chunkLine ['a', ' ', ' ', 'b'], StreamLine.doneLine]).element
      = some ['a', ' ', 'b'] ∧
    (runStream [StreamLine.chunkLine ['a', ' ', ' ', 'b'], StreamLine.doneLine]).element
      ≠ some (chunkConcat [StreamLine.chunkLine ['a', ' ', ' ', 'b'], StreamLine.doneLine]) := by
  have hrun : (runStream [StreamLine.chunkLine ['a', ' ', ' ', 'b'], StreamLine.doneLine]).element
      = some (cleanMessageText ['a', ' ', ' ', 'b']) := by
    simp [runStream, streamStep, streamInit]
  refine ⟨rfl, ?_, ?_⟩
  · rw [hrun, clean_eval_doubleSpace]
  · rw [hrun, clean_eval_doubleSpace]
    intro hcontra
    exact absurd (Option.some.inj hcontra) (by decide)

theorem tryStreaming_text_reconstruction_witness :
    (runStream [StreamLine.chunkLine ['h', 'i'], StreamLine.doneLine]).element
      = if (chunkConcat [StreamLine.chunkLine ['h', 'i'], StreamLine.doneLine]).isEmpty then none
        else some (cleanMessageText
          (chunkConcat [StreamLine.chunkLine ['h', 'i'], StreamLine.doneLine])) :=
  (tryStreaming_text_reconstruction
    [StreamLine.chunkLine ['h', 'i'], StreamLine.doneLine]).2.2 (by decide)

/-- **C10, counterexample.** `cleanMessageText` is not idempotent:
`"**a**"` cleans to `"*'a'*"` (the inner `*a*` is quoted, the outer
asterisks survive), and cleaning again re-quotes the now-delimited span,
giving `"''a''"`. -/
theorem cleanMessageText_not_idempotent :
    cleanMessageText ['*', '*', 'a', '*', '*'] = ['*', '\x27', 'a', '\x27', '*'] ∧
    cleanMessageText (cleanMessageText ['*', '*', 'a', '*', '*'])
      = ['\x27', '\x27', 'a', '\x27', '\x27'] ∧
    cleanMessageText (cleanMessageText ['*', '*', 'a', '*', '*'])
      ≠ cleanMessageText ['*', '*', 'a', '*', '*'] := by
  refine ⟨clean_eval_doubleStar, ?_, ?_⟩
  · rw [clean_eval_doubleStar, clean_eval_starQuote]
  · rw [clean_eval_doubleStar, clean_eval_starQuote]
    decide

/-! ## Trim toolkit -/

theorem dropWhile_isWs_idem (l : List Char) :
    (l.dropWhile isWs).dropWhile isWs = l.dropWhile isWs := by
  induction l with
  | nil => rfl
  | cons c rest ih =>
      rw [List.dropWhile_cons]
      by_cases h : isWs c
      · rw [if_pos h]
        exact ih
      · rw [if_neg h, List.dropWhile_cons, if_neg h]

theorem dropWhile_isWs_of_head {c : Char} {l : List Char} (h : isWs c = false) :
    (c :: l).dropWhile isWs = c :: l := by
  rw [List.dropWhile_cons, if_neg (by simp [h])]

/-- `jsTrim` written as "strip end after strip start". -/
theorem jsTrim_eq (l : List Char) :
    jsTrim l = ((l.dropWhile isWs).reverse.dropWhile isWs).reverse := rfl

theorem jsTrim_prefix_dropWhile (l : List Char) : jsTrim l <+: l.dropWhile isWs := by
  have h : (l.dropWhile isWs).reverse.dropWhile isWs <:+ (l.dropWhile isWs).reverse :=
    List.dropWhile_suffix isWs
  have h2 : ((l.dropWhile isWs).reverse.dropWhile isWs).reverse
      <+: ((l.dropWhile isWs).reverse).reverse := List.reverse_prefix.mpr h
  rw [List.reverse_reverse] at h2
  exact h2

theorem jsTrim_infix (l : List Char) : jsTrim l <:+: l :=
  ((jsTrim_prefix_dropWhile l).isInfix).trans (List.dropWhile_suffix isWs).isInfix

theorem jsTrim_idem (l : List Char) : jsTrim (jsTrim l) = jsTrim l := by
  have hA : (jsTrim l).dropWhile isWs = jsTrim l := by
    rcases hpre : jsTrim l with _ | ⟨c, rest⟩
    · rfl
    · have hp := jsTrim_prefix_dropWhile l
      rw [hpre] at hp
      have hhead : isWs c = false := by
        rcases hdw : l.dropWhile isWs with _ | ⟨d, ds⟩
        · rw [hdw] at hp
          simp at hp
        · rw [hdw] at hp
          have hcd : c = d := by
            rcases hp with ⟨t, ht⟩
            injection ht
          subst hcd
          by_cases hws : isWs c
          · exfalso
            have := dropWhile_isWs_idem l
            rw [hdw, List.dropWhile_cons, if_pos hws] at this
            have hlen1 := congrArg List.length this
            have hlen2 := length_dropWhile_le_len isWs ds
            simp only [List.length_cons] at hlen1
            omega
          · simpa using hws
      exact dropWhile_isWs_of_head hhead
  rw [jsTrim_eq (jsTrim l), hA]
  rw [jsTrim_eq l]
  rw [List.reverse_reverse]
  rw [dropWhile_isWs_idem]

/-- A list whose first and last characters are not whitespace is fixed by
`jsTrim`. -/
theorem jsTrim_fixed_of_ends {l : List Char} (hh : ∀ c, l.head? = some c → isWs c = false)
    (hl : ∀ c, l.getLast? = some c → isWs c = false) : jsTrim l = l := by
  rcases l with _ | ⟨c, rest⟩
  · rfl
  · rw [jsTrim_eq]
    rw [dropWhile_isWs_of_head (hh c rfl)]
    rcases hrev : (c :: rest).reverse with _ | ⟨d, ds⟩
    · simp at hrev
    · have hd : (c :: rest).getLast? = some d := by
        rw [← List.head?_reverse]
        rw [hrev]
        rfl
      calc ((d :: ds).dropWhile isWs).reverse
          = (d :: ds).reverse := by rw [dropWhile_isWs_of_head (hl d hd)]
        _ = ((c :: rest).reverse).reverse := by rw [hrev]
        _ = c :: rest := List.reverse_reverse _

theorem jsTrim_ends {l : List Char} (h : jsTrim l = l) :
    (∀ c, l.head? = some c → isWs c = false) ∧
    (∀ c, l.getLast? = some c → isWs c = false) := by
  constructor
  · intro c hc
    rcases l with _ | ⟨a, rest⟩
    · simp at hc
    · have hac : a = c := by injection hc
      subst hac
      by_cases hws : isWs a
      · exfalso
        have hlen : (jsTrim (a :: rest)).length ≤ rest.length := by
          have h1 : (jsTrim (a :: rest)).length ≤ ((a :: rest).dropWhile isWs).length :=
            (jsTrim_prefix_dropWhile (a :: rest)).length_le
          rw [List.dropWhile_cons, if_pos (by simp [hws])] at h1
          exact h1.trans (length_dropWhile_le_len isWs rest)
        rw [h] at hlen
        simp only [List.length_cons] at hlen
        omega
      · simpa using hws
  · intro c hc
    by_cases hws : isWs c
    · exfalso
      have hdw_all : l.dropWhile isWs = l := by
        have hsuf := List.dropWhile_suffix (l := l) isWs
        have hlen : l.length ≤ (l.dropWhile isWs).length := by
          have h1 := congrArg List.length h
          rw [jsTrim_eq] at h1
          simp only [List.length_reverse] at h1
          have h2 := length_dropWhile_le_len isWs ((l.dropWhile isWs).reverse)
          simp only [List.length_reverse] at h2
          omega
        exact hsuf.eq_of_length (le_antisymm hsuf.length_le hlen)
      have hrev_dw : l.reverse.dropWhile isWs = l.reverse := by
        have he : jsTrim l = (l.reverse.dropWhile isWs).reverse := by
          rw [jsTrim_eq, hdw_all]
        rw [h] at he
        have := congrArg List.reverse he
        simpa using this.symm
      rcases hrevl : l.reverse with _ | ⟨d, ds⟩
      · have hnil : l = [] := by simpa using congrArg List.reverse hrevl
        rw [hnil] at hc
        simp at hc
      · have hd : d = c := by
          have := List.head?_reverse l
          rw [hrevl, hc] at this
          injection this
        subst hd
        rw [hrevl, List.dropWhile_cons, if_pos (by simp [hws])] at hrev_dw
        have hlen1 := congrArg List.length hrev_dw
        have hlen2 := length_dropWhile_le_len isWs ds
        simp only [List.length_cons] at hlen1
        omega
    · simpa using hws

/-! ## splitLines / joinLines toolkit -/

theorem joinLines_cons_of_ne (l : List Char) {ls : List (List Char)} (h : ls ≠ []) :
    joinLines (l :: ls) = l ++ '\n' :: joinLines ls := by
  cases ls with
  | nil => exact absurd rfl h
  | cons a b => rfl

theorem joinLines_splitLines (t : List Char) : joinLines (splitLines t) = t := by
  induction t with
  | nil => rfl
  | cons c rest ih =>
      rw [splitLines_cons]
      by_cases h : c = '\n'
      · subst h
        rw [if_pos rfl, joinLines_cons_of_ne _ (splitLines_ne_nil rest)]
        rw [ih]
        simp
      · rw [if_neg h]
        rcases hs : splitLines rest with _ | ⟨a, b⟩
        · exact absurd hs (splitLines_ne_nil rest)
        · rw [hs] at ih
          cases b with
          | nil =>
              have ha : a = rest := by simpa [joinLines] using ih
              simp [joinLines, ha]
          | cons b0 bs =>
              rw [joinLines_cons_of_ne _ (by simp)] at ih
              rw [joinLines_cons_of_ne _ (by simp)]
              rw [List.cons_append, ih]

theorem splitLines_lines_no_newline (t : List Char) :
    ∀ l ∈ splitLines t, '\n' ∉ l := by
  induction t with
  | nil =>
      intro l hl
      simp only [splitLines, List.mem_singleton] at hl
      simp [hl]
  | cons c rest ih =>
      intro l hl
      rw [splitLines_cons] at hl
      by_cases h : c = '\n'
      · rw [if_pos h] at hl
        rcases List.mem_cons.mp hl with h' | h'
        · simp [h']
        · exact ih l h'
      · rw [if_neg h] at hl
        rcases hs : splitLines rest with _ | ⟨a, b⟩
        · exact absurd hs (splitLines_ne_nil rest)
        · rw [hs] at hl
          rcases List.mem_cons.mp hl with h' | h'
          · subst h'
            intro hmem
            rcases List.mem_cons.mp hmem with h'' | h''
            · exact h h''.symm
            · exact ih a (hs ▸ List.mem_cons_self a b) h''
          · exact ih l (hs ▸ List.mem_cons_of_mem a h')

theorem prefix_cons_cons {a rest : List Char} (c : Char) (h : a <+: rest) :
    (c :: a) <+: (c :: rest) := by
  rcases h with ⟨t, ht⟩
  exact ⟨t, by rw [List.cons_append, ht]⟩

theorem splitLines_head_prefix (t : List Char) :
    ∀ a b, splitLines t = a :: b → a <+: t := by
  induction t with
  | nil =>
      intro a b h
      simp only [splitLines] at h
      injection h with h1 _
      rw [← h1]
  | cons c rest ih =>
      intro a b h
      rw [splitLines_cons] at h
      by_cases hc : c = '\n'
      · rw [if_pos hc] at h
        injection h with h1 _
        rw [← h1]
        exact List.nil_prefix
      · rw [if_neg hc] at h
        rcases hs : splitLines rest with _ | ⟨a', b'⟩
        · exact absurd hs (splitLines_ne_nil rest)
        · rw [hs] at h
          injection h with h1 _
          rw [← h1]
          exact prefix_cons_cons c (ih a' b' hs)

theorem splitLines_infix (t : List Char) : ∀ l ∈ splitLines t, l <:+: t := by
  induction t with
  | nil =>
      intro l hl
      simp only [splitLines, List.mem_singleton] at hl
      simp [hl]
  | cons c rest ih =>
      intro l hl
      rw [splitLines_cons] at hl
      by_cases h : c = '\n'
      · rw [if_pos h] at hl
        rcases List.mem_cons.mp hl with h' | h'
        · simp [h']
        · exact (ih l h').trans (List.infix_cons (List.infix_refl rest))
      · rw [if_neg h] at hl
        rcases hs : splitLines rest with _ | ⟨a, b⟩
        · exact absurd hs (splitLines_ne_nil rest)
        · rw [hs] at hl
          rcases List.mem_cons.mp hl with h' | h'
          · subst h'
            exact (prefix_cons_cons c ( splitLines_head_prefix rest a b hs)).isInfix
          · exact (ih l (hs ▸ List.mem_cons_of_mem a h')).trans
              (List.infix_cons (List.infix_refl rest))

theorem joinLines_mem (ls : List (List Char)) :
    ∀ x ∈ joinLines ls, x = '\n' ∨ ∃ l ∈ ls, x ∈ l := by
  induction ls with
  | nil =>
      intro x hx
      simp [joinLines] at hx
  | cons l rest ih =>
      intro x hx
      cases rest with
      | nil =>
          simp only [joinLines] at hx
          exact Or.inr ⟨l, by simp, hx⟩
      | cons r rs =>
          rw [joinLines_cons_of_ne _ (by simp)] at hx
          rcases List.mem_append.mp hx with h' | h'
          · exact Or.inr ⟨l, by simp, h'⟩
          · rcases List.mem_cons.mp h' with h'' | h''
            · exact Or.inl h''
            · rcases ih x h'' with h3 | ⟨l', hl', hxl'⟩
              · exact Or.inl h3
              · exact Or.inr ⟨l', List.mem_cons_of_mem l hl', hxl'⟩

theorem joinLines_append_single (xs : List (List Char)) (y : List Char) (h : xs ≠ []) :
    joinLines (xs ++ [y]) = joinLines xs ++ '\n' :: y := by
  induction xs with
  | nil => exact absurd rfl h
  | cons a b ih =>
      cases b with
      | nil => rfl
      | cons b0 bs =>
          rw [List.cons_append, joinLines_cons_of_ne _ (by simp),
            joinLines_cons_of_ne _ (by simp), ih (by simp)]
          simp

theorem joinLines_reverse (ls : List (List Char)) :
    (joinLines ls).reverse = joinLines (ls.reverse.map List.reverse) := by
  induction ls with
  | nil => rfl
  | cons l rest ih =>
      cases rest with
      | nil => rfl
      | cons r rs =>
          rw [joinLines_cons_of_ne _ (by simp)]
          rw [List.reverse_append]
          rw [List.reverse_cons]
          rw [ih]
          have hmap : ((l :: r :: rs).reverse.map List.reverse)
              = ((r :: rs).reverse.map List.reverse) ++ [l.reverse] := by
            simp
          rw [hmap]
          rw [joinLines_append_single _ _ (by simp)]
          simp

theorem joinLines_head? (l : List Char) (ls : List (List Char)) (h : l ≠ []) :
    (joinLines (l :: ls)).head? = l.head? := by
  cases ls with
  | nil => rfl
  | cons r rs =>
      rw [joinLines_cons_of_ne _ (by simp)]
      cases l with
      | nil => exact absurd rfl h
      | cons c cs => rfl

/-! ## collapseWs toolkit -/

theorem dropWhile_head_false {p : Char → Bool} {l : List Char} {c : Char} {r : List Char}
    (h : l.dropWhile p = c :: r) : p c = false := by
  have := List.head?_dropWhile_not p l
  rw [h] at this
  simpa using this

theorem collapseWs_nil : collapseWs [] = [] := by
  rw [collapseWs]

theorem collapseWs_eq_nil_iff (x : List Char) : collapseWs x = [] ↔ x = [] := by
  constructor
  · intro h
    cases x with
    | nil => rfl
    | cons c rest =>
        rw [collapseWs] at h
        by_cases hc : isWs c
        · rw [if_pos hc] at h
          simp at h
        · rw [if_neg hc] at h
          simp at h
  · intro h
    rw [h, collapseWs]

theorem collapseWs_subset (x : List Char) : ∀ c ∈ collapseWs x, c ∈ x ∨ c = ' ' := by
  have main : ∀ n (x : List Char), x.length ≤ n → ∀ c ∈ collapseWs x, c ∈ x ∨ c = ' ' := by
    intro n
    induction n with
    | zero =>
        intro x hx
        rw [List.length_eq_zero.mp (Nat.le_zero.mp hx)]
        intro c hc
        rw [collapseWs] at hc
        simp at hc
    | succ m ih =>
        intro x hx c hc
        cases x with
        | nil => rw [collapseWs] at hc; simp at hc
        | cons a rest =>
            rw [collapseWs] at hc
            by_cases ha : isWs a
            · rw [if_pos ha] at hc
              rcases List.mem_cons.mp hc with h' | h'
              · exact Or.inr h'
              · have hlen : (rest.dropWhile isWs).length ≤ m := by
                  have := length_dropWhile_le_len isWs rest
                  simp only [List.length_cons] at hx
                  omega
                rcases ih _ hlen c h' with h'' | h''
                · exact Or.inl (List.mem_cons_of_mem a
                    ((List.dropWhile_sublist isWs).subset h''))
                · exact Or.inr h''
            · rw [if_neg ha] at hc
              rcases List.mem_cons.mp hc with h' | h'
              · exact Or.inl (h' ▸ List.mem_cons_self a rest)
              · have hlen : rest.length ≤ m := by
                  simp only [List.length_cons] at hx
                  omega
                rcases ih _ hlen c h' with h'' | h''
                · exact Or.inl (List.mem_cons_of_mem a h'')
                · exact Or.inr h''
  exact main x.length x (le_refl _)

theorem collapseWs_cons_nonws {c : Char} (rest : List Char) (h : isWs c = false) :
    collapseWs (c :: rest) = c :: collapseWs rest := by
  rw [collapseWs, if_neg (by simp [h])]

theorem collapseWs_head_nonws (x : List Char) :
    ∀ c r, collapseWs x = c :: r → isWs c = false → x.head? = some c := by
  intro c r h hc
  cases x with
  | nil => rw [collapseWs] at h; simp at h
  | cons a rest =>
      rw [collapseWs] at h
      by_cases ha : isWs a
      · rw [if_pos ha] at h
        injection h with h1 _
        rw [← h1] at hc
        simp [isWs] at hc
      · rw [if_neg ha] at h
        injection h with h1 _
        rw [h1]
        rfl

theorem collapseWs_idem (x : List Char) : collapseWs (collapseWs x) = collapseWs x := by
  have main : ∀ n (x : List Char), x.length ≤ n → collapseWs (collapseWs x) = collapseWs x := by
    intro n
    induction n with
    | zero =>
        intro x hx
        rw [List.length_eq_zero.mp (Nat.le_zero.mp hx)]
        rw [collapseWs_nil, collapseWs_nil]
    | succ m ih =>
        intro x hx
        cases x with
        | nil => rw [collapseWs_nil, collapseWs_nil]
        | cons a rest =>
            by_cases ha : isWs a
            · rw [collapseWs, if_pos ha]
              rw [collapseWs, if_pos (by simp [isWs] : isWs ' ' = true)]
              have hy : (collapseWs (rest.dropWhile isWs)).dropWhile isWs
                  = collapseWs (rest.dropWhile isWs) := by
                rcases hyy : collapseWs (rest.dropWhile isWs) with _ | ⟨q, qs⟩
                · rfl
                · rcases hdw : rest.dropWhile isWs with _ | ⟨d, ds⟩
                  · rw [hdw] at hyy
                    rw [collapseWs] at hyy
                    simp at hyy
                  · have hdns : isWs d = false := dropWhile_head_false hdw
                    rw [hdw, collapseWs_cons_nonws _ hdns] at hyy
                    injection hyy with h1 _
                    rw [← h1]
                    exact dropWhile_isWs_of_head hdns
              rw [hy]
              have hlen : (rest.dropWhile isWs).length ≤ m := by
                have := length_dropWhile_le_len isWs rest
                simp only [List.length_cons] at hx
                omega
              rw [ih _ hlen]
            · rw [collapseWs, if_neg ha]
              rw [collapseWs_cons_nonws _ (by simpa using ha)]
              have hlen : rest.length ≤ m := by
                simp only [List.length_cons] at hx
                omega
              rw [ih _ hlen]
  exact main x.length x (le_refl _)

theorem collapseWs_getLast_nonws (x : List Char) :
    ∀ n, x.length ≤ n → (∀ c, x.getLast? = some c → isWs c = false) →
    ∀ d, (collapseWs x).getLast? = some d → isWs d = false := by
  intro n
  induction n generalizing x with
  | zero =>
      intro hx _ d hd
      rw [List.length_eq_zero.mp (Nat.le_zero.mp hx), collapseWs] at hd
      simp at hd
  | succ m ih =>
      intro hx hlast d hd
      cases x with
      | nil => rw [collapseWs] at hd; simp at hd
      | cons a rest =>
          by_cases ha : isWs a
          · rw [collapseWs, if_pos ha] at hd
            rcases hdw : rest.dropWhile isWs with _ | ⟨q, qs⟩
            · exfalso
              have hallws : ∀ y ∈ rest, isWs y = true := by
                intro y hy
                exact List.dropWhile_eq_nil_iff.mp hdw y hy
              cases hrest : rest with
              | nil =>
                  have := hlast a (by rw [hrest]; rfl)
                  rw [ha] at this
                  exact absurd this (by simp)
              | cons r rs =>
                  have hgl : (a :: rest).getLast? = rest.getLast? := by
                    rw [hrest]
                    exact List.getLast?_cons_cons
                  have hmem := List.getLast_mem (l := rest) (by rw [hrest]; simp)
                  have hws := hallws _ hmem
                  have := hlast _ (by
                    rw [hgl]
                    exact (List.getLast?_eq_getLast _ (by rw [hrest]; simp)))
                  rw [hws] at this
                  exact absurd this (by simp)
            · rw [hdw] at hd
              have hqns : isWs q = false := dropWhile_head_false hdw
              have hcne : collapseWs (q :: qs) ≠ [] := by
                rw [Ne, collapseWs_eq_nil_iff]
                simp
              rcases hcc : collapseWs (q :: qs) with _ | ⟨e, es⟩
              · exact absurd hcc hcne
              · rw [hcc] at hd
                rw [List.getLast?_cons_cons] at hd
                have hlen : (q :: qs).length ≤ m := by
                  have := length_dropWhile_le_len isWs rest
                  rw [hdw] at this
                  simp only [List.length_cons] at hx this ⊢
                  omega
                have hlast' : ∀ c, (q :: qs).getLast? = some c → isWs c = false := by
                  intro c hcq
                  have hsuf : (q :: qs) <:+ rest := hdw ▸ List.dropWhile_suffix isWs
                  rcases hsuf with ⟨t, ht⟩
                  have : rest.getLast? = some c := by
                    rw [← ht]
                    rw [List.getLast?_append_of_ne_nil _ (by simp)]
                    exact hcq
                  apply hlast
                  cases rest with
                  | nil => simp at this
                  | cons r rs => rw [List.getLast?_cons_cons]; exact this
                exact ih _ hlen hlast' d (by rw [hcc]; exact hd)
          · rw [collapseWs, if_neg ha] at hd
            rcases hcr : collapseWs rest with _ | ⟨e, es⟩
            · rw [hcr] at hd
              have : rest = [] := (collapseWs_eq_nil_iff rest).mp hcr
              subst this
              simp at hd
              rw [← hd]
              simpa using ha
            · rw [hcr] at hd
              rw [List.getLast?_cons_cons] at hd
              have hrne : rest ≠ [] := by
                intro hcon
                rw [hcon, collapseWs] at hcr
                simp at hcr
              have hlen : rest.length ≤ m := by
                simp only [List.length_cons] at hx
                omega
              have hlast' : ∀ c, rest.getLast? = some c → isWs c = false := by
                intro c hcq
                apply hlast
                cases rest with
                | nil => simp at hcq
                | cons r rs => rw [List.getLast?_cons_cons]; exact hcq
              exact ih _ hlen hlast' d (by rw [hcr]; exact hd)

/-! ## Adjacent-pair toolkit -/

theorem hasPair_nil (a b : Char) : hasPair a b [] = false := rfl

theorem hasPair_cons (a b c : Char) (rest : List Char) :
    hasPair a b (c :: rest) = ((c = a && rest.head? = some b) || hasPair a b rest) := rfl

theorem hasWsPair_nil (b : Char) : hasWsPair b [] = false := rfl

theorem hasWsPair_cons (b c : Char) (rest : List Char) :
    hasWsPair b (c :: rest) = ((isWs c && rest.head? = some b) || hasWsPair b rest) := rfl

theorem hasWsPair_tail {b c : Char} {rest : List Char}
    (h : hasWsPair b (c :: rest) = false) : hasWsPair b rest = false := by
  rw [hasWsPair] at h
  exact (Bool.or_eq_false_iff.mp h).2

theorem hasWsPair_of_suffix {b : Char} {s l : List Char} (hs : s <:+ l)
    (h : hasWsPair b l = false) : hasWsPair b s = false := by
  induction l with
  | nil =>
      rw [List.suffix_nil] at hs
      rw [hs, hasWsPair]
  | cons c rest ih =>
      rcases hs with ⟨t, ht⟩
      cases t with
      | nil =>
          have hsl : s = c :: rest := by simpa using ht
          rw [hsl]
          exact h
      | cons x xs =>
          have : s <:+ rest := ⟨xs, by injection ht with _ h2⟩
          exact ih this (hasWsPair_tail h)

theorem hasWsPair_of_prefix {b : Char} {s l : List Char} (hs : s <+: l)
    (h : hasWsPair b l = false) : hasWsPair b s = false := by
  induction s generalizing l with
  | nil => rw [hasWsPair]
  | cons x s' ih =>
      rcases hs with ⟨t, ht⟩
      subst ht
      rw [List.cons_append, hasWsPair_cons] at h
      rw [hasWsPair_cons]
      rw [Bool.or_eq_false_iff] at h ⊢
      obtain ⟨h1, h2⟩ := h
      constructor
      · cases s' with
        | nil => simp
        | cons y s'' => simpa using h1
      · exact ih ⟨t, rfl⟩ h2

theorem hasWsPair_of_infix {b : Char} {s l : List Char} (hs : s <:+: l)
    (h : hasWsPair b l = false) : hasWsPair b s = false := by
  rcases hs with ⟨pre, suf, hl⟩
  have h1 : (s ++ suf) <:+ l := ⟨pre, by rw [← hl, List.append_assoc]⟩
  exact hasWsPair_of_prefix ⟨suf, rfl⟩ (hasWsPair_of_suffix h1 h)

theorem hasPair_false_of_hasWsPair {b : Char} {l : List Char}
    (h : hasWsPair b l = false) : hasPair ' ' b l = false := by
  induction l with
  | nil => rw [hasPair]
  | cons c rest ih =>
      rw [hasWsPair] at h
      rw [Bool.or_eq_false_iff] at h
      obtain ⟨h1, h2⟩ := h
      rw [hasPair, Bool.or_eq_false_iff]
      refine ⟨?_, ih h2⟩
      by_cases hc : c = ' '
      · subst hc
        simpa [isWs] using h1
      · simp [hc]

theorem hasWsPair_of_dropWhile {q c : Char} {rest ys : List Char}
    (hc : isWs c = true) (h : rest.dropWhile isWs = q :: ys) :
    hasWsPair q (c :: rest) = true := by
  induction rest generalizing c with
  | nil => simp [List.dropWhile] at h
  | cons e u ih =>
      rw [List.dropWhile_cons] at h
      by_cases he : isWs e
      · rw [if_pos he] at h
        rw [hasWsPair]
        rw [ih he h]
        simp
      · rw [if_neg he] at h
        injection h with h1 _
        subst h1
        rw [hasWsPair]
        simp [hc]

theorem collapseWs_noSpacePair {p : Char} (x : List Char) :
    ∀ n, x.length ≤ n → hasWsPair p x = false → hasPair ' ' p (collapseWs x) = false := by
  intro n
  induction n generalizing x with
  | zero =>
      intro hx _
      rw [List.length_eq_zero.mp (Nat.le_zero.mp hx), collapseWs_nil, hasPair]
  | succ m ih =>
      intro hx hp
      cases x with
      | nil => rw [collapseWs_nil, hasPair]
      | cons a rest =>
          by_cases ha : isWs a
          · rw [collapseWs, if_pos ha]
            rw [hasPair, Bool.or_eq_false_iff]
            constructor
            · rcases hdw : rest.dropWhile isWs with _ | ⟨q, qs⟩
              · rw [collapseWs_nil]
                simp
              · have hq : isWs q = false := dropWhile_head_false hdw
                rw [collapseWs_cons_nonws _ hq]
                have hqp : q ≠ p := by
                  intro hqq
                  subst hqq
                  rw [hasWsPair_of_dropWhile ha hdw] at hp
                  exact absurd hp (by simp)
                simp [hqp]
            · have hlen : (rest.dropWhile isWs).length ≤ m := by
                have := length_dropWhile_le_len isWs rest
                simp only [List.length_cons] at hx
                omega
              exact ih _ hlen (hasWsPair_of_suffix (List.dropWhile_suffix isWs)
                (hasWsPair_tail hp))
          · rw [collapseWs, if_neg ha]
            rw [hasPair, Bool.or_eq_false_iff]
            constructor
            · have : a ≠ ' ' := by
                intro hcon
                rw [hcon] at ha
                simp [isWs] at ha
              simp [this]
            · have hlen : rest.length ≤ m := by
                simp only [List.length_cons] at hx
                omega
              exact ih _ hlen (hasWsPair_tail hp)

theorem hasPair_append_iff (a b : Char) (x y : List Char) :
    hasPair a b (x ++ y) = true ↔
      hasPair a b x = true ∨ hasPair a b y = true ∨
        (x.getLast? = some a ∧ y.head? = some b) := by
  induction x with
  | nil =>
      simp only [List.nil_append, List.getLast?_nil]
      rw [hasPair]
      simp
  | cons c x' ih =>
      rw [List.cons_append, hasPair]
      cases x' with
      | nil =>
          simp only [List.nil_append]
          rw [hasPair]
          constructor
          · intro h
            rcases Bool.or_eq_true_iff.mp h with h' | h'
            · rw [Bool.and_eq_true] at h'
              refine Or.inr (Or.inr ⟨?_, ?_⟩)
              · simp only [List.getLast?_singleton]
                exact congrArg some (by simpa using h'.1)
              · simpa using h'.2
            · exact Or.inr (Or.inl h')
          · intro h
            rcases h with h' | h' | ⟨h1, h2⟩
            · simp [hasPair_nil] at h'
            · simp [h']
            · simp only [List.getLast?_singleton] at h1
              injection h1 with h1
              simp [h1, h2]
      | cons d x'' =>
          rw [hasPair]
          constructor
          · intro h
            rcases Bool.or_eq_true_iff.mp h with h' | h'
            · rw [Bool.and_eq_true] at h'
              refine Or.inl ?_
              rw [Bool.or_eq_true_iff]
              left
              rw [Bool.and_eq_true]
              exact ⟨h'.1, by simpa using h'.2⟩
            · rcases ih.mp h' with h'' | h'' | h'' <;>
                [exact Or.inl (by rw [Bool.or_eq_true_iff]; right; exact h'');
                 exact Or.inr (Or.inl h'');
                 exact Or.inr (Or.inr (by
                   rw [List.getLast?_cons_cons]
                   exact h''))]
          · intro h
            rcases h with h' | h' | ⟨h1, h2⟩
            · rcases Bool.or_eq_true_iff.mp h' with h'' | h''
              · rw [Bool.and_eq_true] at h''
                rw [Bool.or_eq_true_iff]
                left
                rw [Bool.and_eq_true]
                exact ⟨h''.1, by simpa using h''.2⟩
              · rw [Bool.or_eq_true_iff]
                right
                exact ih.mpr (Or.inl h'')
            · rw [Bool.or_eq_true_iff]
              right
              exact ih.mpr (Or.inr (Or.inl h'))
            · rw [Bool.or_eq_true_iff]
              right
              refine ih.mpr (Or.inr (Or.inr ⟨?_, h2⟩))
              rw [List.getLast?_cons_cons] at h1
              exact h1

theorem joinLines_noSpacePair {p : Char} (hp : p ≠ '\n') (ls : List (List Char))
    (h : ∀ l ∈ ls, hasPair ' ' p l = false) :
    hasPair ' ' p (joinLines ls) = false := by
  induction ls with
  | nil => rw [joinLines, hasPair]
  | cons l rest ih =>
      cases rest with
      | nil => exact h l (by simp)
      | cons r rs =>
          rw [joinLines_cons_of_ne _ (by simp)]
          rw [Bool.eq_false_iff]
          intro hcon
          rcases (hasPair_append_iff ' ' p l ('\n' :: joinLines (r :: rs))).mp hcon
            with h' | h' | ⟨h1, h2⟩
          · rw [h l (by simp)] at h'
            exact absurd h' (by simp)
          · rw [hasPair] at h'
            rcases Bool.or_eq_true_iff.mp h' with h'' | h''
            · rw [Bool.and_eq_true] at h''
              have := h''.1
              simp at this
            · rw [ih (fun x hx => h x (List.mem_cons_of_mem l hx))] at h''
              exact absurd h'' (by simp)
          · injection h2 with h2
            exact hp h2.symm

/-! ## cleanLinesGo toolkit -/

/-- A line as produced by the per-line cleanup: trimmed, inner whitespace
collapsed, and newline-free. -/
def TidyLine (l : List Char) : Prop :=
  jsTrim l = l ∧ collapseWs l = l ∧ '\n' ∉ l

/-- Two adjacent empty lines occur in the list. -/
def hasEmptyPair (ls : List (List Char)) : Bool :=
  match ls with
  | [] => false
  | l :: rest => (l.isEmpty && rest.head? = some ([] : List Char)) || hasEmptyPair rest

theorem hasEmptyPair_nil : hasEmptyPair [] = false := rfl

theorem hasEmptyPair_cons (l : List Char) (rest : List (List Char)) :
    hasEmptyPair (l :: rest)
      = ((l.isEmpty && rest.head? = some ([] : List Char)) || hasEmptyPair rest) := rfl

theorem tidyLine_nil : TidyLine [] :=
  ⟨rfl, collapseWs_nil, by simp⟩

theorem tidy_collapse_trim {raw : List Char} (h : '\n' ∉ raw) :
    TidyLine (collapseWs (jsTrim raw)) := by
  rcases htr : jsTrim raw with _ | ⟨c, r⟩
  · rw [collapseWs_nil]
    exact tidyLine_nil
  · have hfix : jsTrim (jsTrim raw) = jsTrim raw := jsTrim_idem raw
    rw [htr] at hfix
    have hends := jsTrim_ends hfix
    refine ⟨?_, ?_, ?_⟩
    · apply jsTrim_fixed_of_ends
      · intro d hd
        have hc : isWs c = false := hends.1 c rfl
        rw [collapseWs_cons_nonws _ hc] at hd
        injection hd with hd
        rw [← hd]
        exact hc
      · intro d hd
        exact collapseWs_getLast_nonws (c :: r) (c :: r).length (le_refl _) hends.2 d hd
    · exact collapseWs_idem _
    · intro hmem
      rcases collapseWs_subset _ _ hmem with h' | h'
      · exact h (jsTrim_subset raw _ (htr ▸ h'))
      · simp at h'

theorem cleanLinesGo_mem (ls : List (List Char)) (ce : Nat) :
    ∀ l ∈ cleanLinesGo ls ce, l = [] ∨ ∃ raw ∈ ls, l = collapseWs (jsTrim raw) := by
  induction ls generalizing ce with
  | nil =>
      intro l hl
      rw [cleanLinesGo] at hl
      simp at hl
  | cons a rest ih =>
      intro l hl
      rw [cleanLinesGo] at hl
      by_cases hs : (jsTrim a).isEmpty
      · rw [if_pos hs] at hl
        by_cases hce : ce + 1 ≤ 1
        · rw [if_pos hce] at hl
          rcases List.mem_cons.mp hl with h' | h'
          · exact Or.inl h'
          · rcases ih (ce + 1) l h' with h'' | ⟨raw, hraw, hcol⟩
            · exact Or.inl h''
            · exact Or.inr ⟨raw, List.mem_cons_of_mem a hraw, hcol⟩
        · rw [if_neg hce] at hl
          rcases ih (ce + 1) l hl with h'' | ⟨raw, hraw, hcol⟩
          · exact Or.inl h''
          · exact Or.inr ⟨raw, List.mem_cons_of_mem a hraw, hcol⟩
      · rw [if_neg hs] at hl
        rcases List.mem_cons.mp hl with h' | h'
        · exact Or.inr ⟨a, by simp, h'⟩
        · rcases ih 0 l h' with h'' | ⟨raw, hraw, hcol⟩
          · exact Or.inl h''
          · exact Or.inr ⟨raw, List.mem_cons_of_mem a hraw, hcol⟩

theorem cleanLinesGo_tidy {ls : List (List Char)} (h : ∀ raw ∈ ls, '\n' ∉ raw) (ce : Nat) :
    ∀ l ∈ cleanLinesGo ls ce, TidyLine l := by
  intro l hl
  rcases cleanLinesGo_mem ls ce l hl with h' | ⟨raw, hraw, hcol⟩
  · rw [h']
    exact tidyLine_nil
  · rw [hcol]
    exact tidy_collapse_trim (h raw hraw)

theorem cleanLinesGo_head_ne_nil (ls : List (List Char)) (k : Nat) :
    ∀ l, (cleanLinesGo ls (k + 1)).head? = some l → l ≠ [] := by
  induction ls generalizing k with
  | nil =>
      intro l hl
      rw [cleanLinesGo] at hl
      simp at hl
  | cons a rest ih =>
      intro l hl
      rw [cleanLinesGo] at hl
      by_cases hs : (jsTrim a).isEmpty
      · rw [if_pos hs, if_neg (by omega)] at hl
        exact ih (k + 1) l hl
      · rw [if_neg hs] at hl
        injection hl with hl
        rw [← hl]
        intro hcon
        rw [collapseWs_eq_nil_iff] at hcon
        rw [hcon] at hs
        simp at hs

theorem cleanLinesGo_noEmptyPair (ls : List (List Char)) (ce : Nat) :
    hasEmptyPair (cleanLinesGo ls ce) = false := by
  induction ls generalizing ce with
  | nil => rw [cleanLinesGo, hasEmptyPair_nil]
  | cons a rest ih =>
      rw [cleanLinesGo]
      by_cases hs : (jsTrim a).isEmpty
      · rw [if_pos hs]
        by_cases hce : ce + 1 ≤ 1
        · rw [if_pos hce, hasEmptyPair_cons, Bool.or_eq_false_iff]
          constructor
          · rcases hh : (cleanLinesGo rest (ce + 1)).head? with _ | ⟨l⟩
            · simp
            · have := cleanLinesGo_head_ne_nil rest ce l hh
              simp [this]
          · exact ih (ce + 1)
        · rw [if_neg hce]
          exact ih (ce + 1)
      · rw [if_neg hs, hasEmptyPair_cons, Bool.or_eq_false_iff]
        constructor
        · have : collapseWs (jsTrim a) ≠ [] := by
            rw [Ne, collapseWs_eq_nil_iff]
            simpa using hs
          simp [this]
        · exact ih 0

theorem cleanLinesGo_getLast (ls : List (List Char)) :
    ∀ ce lastRaw, ls.getLast? = some lastRaw → jsTrim lastRaw ≠ [] →
      cleanLinesGo ls ce ≠ [] ∧
      (cleanLinesGo ls ce).getLast? = some (collapseWs (jsTrim lastRaw)) := by
  induction ls with
  | nil =>
      intro ce lastRaw h
      simp at h
  | cons a rest ih =>
      intro ce lastRaw h hne
      cases rest with
      | nil =>
          have ha : a = lastRaw := by simpa using h
          subst ha
          rw [cleanLinesGo]
          rw [if_neg (by simpa using hne)]
          rw [cleanLinesGo]
          exact ⟨by simp, rfl⟩
      | cons r rs =>
          have hlast : (r :: rs).getLast? = some lastRaw := by
            rw [← h]
            exact List.getLast?_cons_cons.symm
          rw [cleanLinesGo]
          by_cases hs : (jsTrim a).isEmpty
          · rw [if_pos hs]
            by_cases hce : ce + 1 ≤ 1
            · rw [if_pos hce]
              obtain ⟨h1, h2⟩ := ih (ce + 1) lastRaw hlast hne
              refine ⟨by simp, ?_⟩
              rcases hgo : cleanLinesGo (r :: rs) (ce + 1) with _ | ⟨x, xs⟩
              · exact absurd hgo h1
              · rw [List.getLast?_cons_cons]
                rw [← hgo]
                exact h2
            · rw [if_neg hce]
              exact ih (ce + 1) lastRaw hlast hne
          · rw [if_neg hs]
            obtain ⟨h1, h2⟩ := ih 0 lastRaw hlast hne
            refine ⟨by simp, ?_⟩
            rcases hgo : cleanLinesGo (r :: rs) 0 with _ | ⟨x, xs⟩
            · exact absurd hgo h1
            · rw [List.getLast?_cons_cons]
              rw [← hgo]
              exact h2

theorem cleanLinesGo_fixpoint (X : List (List Char))
    (htidy : ∀ l ∈ X, jsTrim l = l ∧ collapseWs l = l)
    (hnp : hasEmptyPair X = false) :
    ∀ ce, (X.head? = some ([] : List Char) → ce = 0) → cleanLinesGo X ce = X := by
  induction X with
  | nil =>
      intro ce _
      rw [cleanLinesGo]
  | cons l rest ih =>
      intro ce hhead
      obtain ⟨htriml, hcoll⟩ := htidy l (by simp)
      rw [cleanLinesGo]
      by_cases hl : l = []
      · subst hl
        have hce : ce = 0 := hhead rfl
        subst hce
        rw [if_pos (by rw [jsTrim_nil]; rfl), if_pos (by omega)]
        have hrest : rest.head? ≠ some ([] : List Char) := by
          rw [hasEmptyPair_cons] at hnp
          rcases Bool.or_eq_false_iff.mp hnp with ⟨h1, _⟩
          intro hcon
          rw [hcon] at h1
          simp at h1
        rw [ih (fun x hx => htidy x (List.mem_cons_of_mem _ hx))
          ((Bool.or_eq_false_iff.mp (by rw [hasEmptyPair_cons] at hnp; exact hnp)).2)
          1 (fun hcon => absurd hcon hrest)]
      · have hs : (jsTrim l).isEmpty = false := by
          rw [htriml]
          simpa using hl
        rw [if_neg (by simp [hs])]
        rw [htriml, hcoll]
        rw [ih (fun x hx => htidy x (List.mem_cons_of_mem _ hx))
          ((Bool.or_eq_false_iff.mp (by rw [hasEmptyPair_cons] at hnp; exact hnp)).2)
          0 (fun _ => rfl)]

/-! ## fixBulletGo toolkit -/

theorem isListItem_nil : isListItem [] = false := rfl

theorem fixBulletGo_nil (b : Bool) (prev : Option (List Char)) :
    fixBulletGo [] b prev = [] := rfl

theorem fb_branch1 {l : List Char} (rest : List (List Char)) {inList : Bool}
    (prev : Option (List Char)) (hitem : isListItem (jsTrim l) = true)
    (hb : inList = false) :
    fixBulletGo (l :: rest) inList prev
      = (if prevNonempty prev then [([] : List Char)] else [])
        ++ l :: fixBulletGo rest true (some l) := by
  rw [fixBulletGo]
  rw [if_pos (by simp [hitem, hb])]

theorem fb_branch2 {l : List Char} (rest : List (List Char)) {inList : Bool}
    (prev : Option (List Char)) (hitem : isListItem (jsTrim l) = false)
    (hb : inList = true) (hne : (jsTrim l).isEmpty = false) :
    fixBulletGo (l :: rest) inList prev
      = (if prevNonempty prev then [([] : List Char)] else [])
        ++ l :: fixBulletGo rest false (some l) := by
  rw [fixBulletGo]
  rw [if_neg (by simp [hitem]), if_pos (by simp [hitem, hb, hne])]

theorem fb_branch3 {l : List Char} (rest : List (List Char)) {inList : Bool}
    (prev : Option (List Char))
    (h1 : (isListItem (jsTrim l) && !inList) = false)
    (h2 : (!isListItem (jsTrim l) && inList && !(jsTrim l).isEmpty) = false) :
    fixBulletGo (l :: rest) inList prev = l :: fixBulletGo rest inList (some l) := by
  rw [fixBulletGo]
  rw [if_neg (by simp [h1]), if_neg (by simp [h2])]

theorem fixBulletGo_mem (ls : List (List Char)) :
    ∀ b prev, ∀ l ∈ fixBulletGo ls b prev, l = [] ∨ l ∈ ls := by
  induction ls with
  | nil =>
      intro b prev l hl
      rw [fixBulletGo_nil] at hl
      simp at hl
  | cons a rest ih =>
      intro b prev l hl
      rw [fixBulletGo] at hl
      split at hl
      · rcases List.mem_append.mp hl with h' | h'
        · left
          rcases Bool.eq_false_or_eq_true (prevNonempty prev) with hp | hp <;>
            rw [hp] at h' <;> simp at h'
          exact h'
        · rcases List.mem_cons.mp h' with h'' | h''
          · exact Or.inr (h'' ▸ List.mem_cons_self a rest)
          · rcases ih true (some a) l h'' with h3 | h3
            · exact Or.inl h3
            · exact Or.inr (List.mem_cons_of_mem a h3)
      · split at hl
        · rcases List.mem_append.mp hl with h' | h'
          · left
            rcases Bool.eq_false_or_eq_true (prevNonempty prev) with hp | hp <;>
              rw [hp] at h' <;> simp at h'
            exact h'
          · rcases List.mem_cons.mp h' with h'' | h''
            · exact Or.inr (h'' ▸ List.mem_cons_self a rest)
            · rcases ih false (some a) l h'' with h3 | h3
              · exact Or.inl h3
              · exact Or.inr (List.mem_cons_of_mem a h3)
        · rcases List.mem_cons.mp hl with h'' | h''
          · exact Or.inr (h'' ▸ List.mem_cons_self a rest)
          · rcases ih b (some a) l h'' with h3 | h3
            · exact Or.inl h3
            · exact Or.inr (List.mem_cons_of_mem a h3)

theorem fixBulletGo_ne_nil {ls : List (List Char)} (h : ls ≠ []) (b : Bool)
    (prev : Option (List Char)) : fixBulletGo ls b prev ≠ [] := by
  cases ls with
  | nil => exact absurd rfl h
  | cons a rest =>
      rw [fixBulletGo]
      split
      · intro hcon
        rcases List.append_eq_nil.mp hcon with ⟨_, h2⟩
        simp at h2
      · split
        · intro hcon
          rcases List.append_eq_nil.mp hcon with ⟨_, h2⟩
          simp at h2
        · simp

theorem fixBulletGo_head (l : List Char) (rest : List (List Char)) (b : Bool) :
    ∃ tl, fixBulletGo (l :: rest) b none = l :: tl := by
  rw [fixBulletGo]
  have hpn : prevNonempty none = false := rfl
  split
  · rw [hpn]
    exact ⟨_, rfl⟩
  · split
    · rw [hpn]
      exact ⟨_, rfl⟩
    · exact ⟨_, rfl⟩

theorem fixBulletGo_getLast (ls : List (List Char)) :
    ∀ b prev, ls ≠ [] → (fixBulletGo ls b prev).getLast? = ls.getLast? := by
  induction ls with
  | nil =>
      intro b prev h
      exact absurd rfl h
  | cons a rest ih =>
      intro b prev _
      cases rest with
      | nil =>
          rw [fixBulletGo]
          split
          · rcases Bool.eq_false_or_eq_true (prevNonempty prev) with hp | hp <;> rw [hp] <;> rfl
          · split
            · rcases Bool.eq_false_or_eq_true (prevNonempty prev) with hp | hp <;>
                rw [hp] <;> rfl
            · rfl
      | cons r rs =>
          have hrec : ∀ b' pv, (fixBulletGo (r :: rs) b' pv).getLast? = (r :: rs).getLast? :=
            fun b' pv => ih b' pv (by simp)
          have hne : ∀ b' pv, fixBulletGo (r :: rs) b' pv ≠ [] :=
            fun b' pv => fixBulletGo_ne_nil (by simp) b' pv
          have hstep : ∀ (z : List (List Char)), z ≠ [] →
              (a :: z).getLast? = z.getLast? := by
            intro z hz
            cases z with
            | nil => exact absurd rfl hz
            | cons y ys => exact List.getLast?_cons_cons
          rw [fixBulletGo]
          rw [List.getLast?_cons_cons]
          split
          · rw [List.getLast?_append_of_ne_nil _ (by simp)]
            rw [hstep _ (hne true (some a)), hrec true (some a)]
          · split
            · rw [List.getLast?_append_of_ne_nil _ (by simp)]
              rw [hstep _ (hne false (some a)), hrec false (some a)]
            · rw [hstep _ (hne b (some a)), hrec b (some a)]

theorem fixBulletGo_head_empty (ls : List (List Char)) (b : Bool)
    (prev : Option (List Char))
    (h : (fixBulletGo ls b prev).head? = some ([] : List Char)) :
    ls.head? = some ([] : List Char) ∨ prevNonempty prev = true := by
  cases ls with
  | nil =>
      rw [fixBulletGo_nil] at h
      simp at h
  | cons a rest =>
      cases hp : prevNonempty prev with
      | true => exact Or.inr rfl
      | false =>
          rw [fixBulletGo, hp] at h
          left
          split at h <;> [skip; split at h] <;>
            · simp at h
              simp [h]

theorem fixBulletGo_noEmptyPair (ls : List (List Char)) :
    ∀ b prev, hasEmptyPair ls = false →
      hasEmptyPair (fixBulletGo ls b prev) = false := by
  induction ls with
  | nil =>
      intro b prev _
      rw [fixBulletGo_nil, hasEmptyPair_nil]
  | cons l rest ih =>
      intro b prev hnp
      rw [hasEmptyPair_cons, Bool.or_eq_false_iff] at hnp
      by_cases h1 : (isListItem (jsTrim l) && !b) = true
      · rw [Bool.and_eq_true] at h1
        obtain ⟨hitem, hb1⟩ := h1
        have hb : b = false := by simpa using hb1
        rw [fb_branch1 rest prev hitem hb]
        have hne : l ≠ [] := by
          intro hl
          rw [hl, jsTrim_nil, isListItem_nil] at hitem
          exact absurd hitem (by simp)
        have hie : l.isEmpty = false := by
          cases l with
          | nil => exact absurd rfl hne
          | cons a as => rfl
        have hrec := ih true (some l) hnp.2
        rcases Bool.eq_false_or_eq_true (prevNonempty prev) with hp | hp
        · rw [if_pos hp, List.singleton_append]
          simp [hasEmptyPair_cons, hrec, hne, hie]
        · rw [if_neg (by simp [hp]), List.nil_append]
          simp [hasEmptyPair_cons, hrec, hne, hie]
      · by_cases h2 : (!isListItem (jsTrim l) && b && !(jsTrim l).isEmpty) = true
        · rw [Bool.and_eq_true, Bool.and_eq_true] at h2
          obtain ⟨⟨hni, hb⟩, hnse⟩ := h2
          have hitem : isListItem (jsTrim l) = false := by simpa using hni
          have hse : (jsTrim l).isEmpty = false := by simpa using hnse
          rw [fb_branch2 rest prev hitem hb hse]
          have hne : l ≠ [] := by
            intro hl
            rw [hl, jsTrim_nil] at hse
            simp at hse
          have hie : l.isEmpty = false := by
            cases l with
            | nil => exact absurd rfl hne
            | cons a as => rfl
          have hrec := ih false (some l) hnp.2
          rcases Bool.eq_false_or_eq_true (prevNonempty prev) with hp | hp
          · rw [if_pos hp, List.singleton_append]
            simp [hasEmptyPair_cons, hrec, hne, hie]
          · rw [if_neg (by simp [hp]), List.nil_append]
            simp [hasEmptyPair_cons, hrec, hne, hie]
        · have h1' : (isListItem (jsTrim l) && !b) = false := by
            cases hx : (isListItem (jsTrim l) && !b) with
            | false => rfl
            | true => exact absurd hx h1
          have h2' : (!isListItem (jsTrim l) && b && !(jsTrim l).isEmpty) = false := by
            cases hx : (!isListItem (jsTrim l) && b && !(jsTrim l).isEmpty) with
            | false => rfl
            | true => exact absurd hx h2
          rw [fb_branch3 rest prev h1' h2']
          have hrec := ih b (some l) hnp.2
          rw [hasEmptyPair_cons, hrec, Bool.or_false]
          by_cases hl : l = []
          · subst hl
            have hR : (fixBulletGo rest b (some ([] : List Char))).head?
                ≠ some ([] : List Char) := by
              intro hcon
              rcases fixBulletGo_head_empty rest b (some []) hcon with hh | hh
              · have hx := hnp.1
                rw [hh] at hx
                simp at hx
              · simp [prevNonempty, jsTrim_nil] at hh
            simp [hR]
          · have hie : l.isEmpty = false := by
              cases l with
              | nil => exact absurd rfl hl
              | cons a as => rfl
            rw [hie, Bool.false_and]

theorem fixBulletGo_idem (ls : List (List Char)) :
    ∀ b prev, fixBulletGo (fixBulletGo ls b prev) b prev = fixBulletGo ls b prev := by
  induction ls with
  | nil =>
      intro b prev
      rw [fixBulletGo_nil, fixBulletGo_nil]
  | cons l rest ih =>
      intro b prev
      have hnil1 : (isListItem (jsTrim ([] : List Char)) && !b) = false := by
        rw [jsTrim_nil, isListItem_nil, Bool.false_and]
      have hnil2 : (!isListItem (jsTrim ([] : List Char)) && b
          && !(jsTrim ([] : List Char)).isEmpty) = false := by
        rw [jsTrim_nil]
        simp [isListItem_nil]
      have hpn : prevNonempty (some ([] : List Char)) = false := rfl
      by_cases h1 : (isListItem (jsTrim l) && !b) = true
      · rw [Bool.and_eq_true] at h1
        obtain ⟨hitem, hb1⟩ := h1
        have hb : b = false := by simpa using hb1
        rw [fb_branch1 rest prev hitem hb]
        rcases Bool.eq_false_or_eq_true (prevNonempty prev) with hp | hp
        · rw [if_pos hp, List.singleton_append]
          rw [fb_branch3 (l :: fixBulletGo rest true (some l)) prev hnil1 hnil2]
          rw [fb_branch1 (fixBulletGo rest true (some l)) (some ([] : List Char)) hitem hb]
          rw [if_neg (by simp [hpn]), List.nil_append]
          rw [ih true (some l)]
        · rw [if_neg (by simp [hp]), List.nil_append]
          rw [fb_branch1 (fixBulletGo rest true (some l)) prev hitem hb]
          rw [if_neg (by simp [hp]), List.nil_append]
          rw [ih true (some l)]
      · by_cases h2 : (!isListItem (jsTrim l) && b && !(jsTrim l).isEmpty) = true
        · rw [Bool.and_eq_true, Bool.and_eq_true] at h2
          obtain ⟨⟨hni, hb⟩, hnse⟩ := h2
          have hitem : isListItem (jsTrim l) = false := by simpa using hni
          have hse : (jsTrim l).isEmpty = false := by simpa using hnse
          rw [fb_branch2 rest prev hitem hb hse]
          rcases Bool.eq_false_or_eq_true (prevNonempty prev) with hp | hp
          · rw [if_pos hp, List.singleton_append]
            rw [fb_branch3 (l :: fixBulletGo rest false (some l)) prev hnil1 hnil2]
            rw [fb_branch2 (fixBulletGo rest false (some l)) (some ([] : List Char)) hitem hb hse]
            rw [if_neg (by simp [hpn]), List.nil_append]
            rw [ih false (some l)]
          · rw [if_neg (by simp [hp]), List.nil_append]
            rw [fb_branch2 (fixBulletGo rest false (some l)) prev hitem hb hse]
            rw [if_neg (by simp [hp]), List.nil_append]
            rw [ih false (some l)]
        · have h1' : (isListItem (jsTrim l) && !b) = false := by
            cases hx : (isListItem (jsTrim l) && !b) with
            | false => rfl
            | true => exact absurd hx h1
          have h2' : (!isListItem (jsTrim l) && b && !(jsTrim l).isEmpty) = false := by
            cases hx : (!isListItem (jsTrim l) && b && !(jsTrim l).isEmpty) with
            | false => rfl
            | true => exact absurd hx h2
          rw [fb_branch3 rest prev h1' h2']
          rw [fb_branch3 (fixBulletGo rest b (some l)) prev h1' h2']
          rw [ih b (some l)]

/-! ## glue lemmas for the idempotence argument -/

theorem mem_dropWhile_of_neg {p : Char → Bool} {c : Char} (l : List Char)
    (hc : c ∈ l) (hp : p c = false) : c ∈ l.dropWhile p := by
  induction l with
  | nil => simp at hc
  | cons a rest ih =>
      rw [List.dropWhile_cons]
      by_cases ha : p a = true
      · rw [if_pos ha]
        rcases List.mem_cons.mp hc with h | h
        · rw [h] at hp
          rw [ha] at hp
          exact absurd hp (by simp)
        · exact ih h
      · rw [if_neg ha]
        exact hc

theorem jsTrim_ne_nil_of_mem {c : Char} {l : List Char} (hc : c ∈ l)
    (hw : isWs c = false) : jsTrim l ≠ [] := by
  intro hcon
  rw [jsTrim] at hcon
  rw [List.reverse_eq_nil_iff] at hcon
  have h1 : c ∈ l.dropWhile isWs := mem_dropWhile_of_neg l hc hw
  have h2 : c ∈ (l.dropWhile isWs).reverse := by simpa using h1
  have h3 : c ∈ (l.dropWhile isWs).reverse.dropWhile isWs :=
    mem_dropWhile_of_neg _ h2 hw
  rw [hcon] at h3
  simp at h3

theorem parenStrip_infix (x : List Char) : parenStrip x <:+: x := by
  rw [parenStrip]
  split
  · split
    · exact List.infix_refl x
    · have h1 : jsTrim ((x.drop 1).dropLast) <:+: (x.drop 1).dropLast := jsTrim_infix _
      have h2 : (x.drop 1).dropLast <+: x.drop 1 := List.dropLast_prefix _
      have h3 : x.drop 1 <:+ x := List.drop_suffix 1 x
      exact h1.trans (h2.isInfix.trans h3.isInfix)
  · exact List.infix_refl x

theorem parenStrip_trimmed {x : List Char} (h : jsTrim x = x) :
    jsTrim (parenStrip x) = parenStrip x := by
  rw [parenStrip]
  split
  · split
    · exact h
    · exact jsTrim_idem _
  · exact h

theorem splitLines_getLast_suffix (t : List Char) :
    ∀ lr, (splitLines t).getLast? = some lr →
      lr <:+ t ∧ (lr = [] → t = [] ∨ t.getLast? = some '\n') := by
  induction t with
  | nil =>
      intro lr h
      simp only [splitLines] at h
      rw [List.getLast?_singleton] at h
      injection h with h
      refine ⟨?_, fun _ => Or.inl rfl⟩
      rw [← h]
  | cons c rest ih =>
      intro lr h
      rw [splitLines_cons] at h
      by_cases hc : c = '\n'
      · rw [if_pos hc] at h
        have hne := splitLines_ne_nil rest
        have hgl : (([] : List Char) :: splitLines rest).getLast?
            = (splitLines rest).getLast? := by
          cases hS : splitLines rest with
          | nil => exact absurd hS hne
          | cons a b => exact List.getLast?_cons_cons
        rw [hgl] at h
        obtain ⟨hsuf, hemp⟩ := ih lr h
        refine ⟨hsuf.trans (List.suffix_cons c rest), ?_⟩
        intro hlr
        rcases hemp hlr with h0 | h0
        · right
          rw [h0, hc]
          rfl
        · right
          cases rest with
          | nil => simp at h0
          | cons r rs =>
              rw [List.getLast?_cons_cons]
              exact h0
      · rw [if_neg hc] at h
        cases hS : splitLines rest with
        | nil => exact absurd hS (splitLines_ne_nil rest)
        | cons first others =>
            rw [hS] at h
            cases others with
            | nil =>
                rw [List.getLast?_singleton] at h
                injection h with h
                have hrest : rest = first := by
                  have hj := joinLines_splitLines rest
                  rw [hS] at hj
                  rw [show joinLines [first] = first from rfl] at hj
                  exact hj.symm
                constructor
                · rw [← h, hrest]
                · intro hemp
                  rw [← h] at hemp
                  simp at hemp
            | cons o os =>
                rw [List.getLast?_cons_cons] at h
                have hih : (splitLines rest).getLast? = some lr := by
                  rw [hS, List.getLast?_cons_cons]
                  exact h
                obtain ⟨hsuf, hemp⟩ := ih lr hih
                refine ⟨hsuf.trans (List.suffix_cons c rest), ?_⟩
                intro hlr
                rcases hemp hlr with h0 | h0
                · rw [h0] at hS
                  simp [splitLines] at hS
                · cases rest with
                  | nil => simp at h0
                  | cons r rs =>
                      right
                      rw [List.getLast?_cons_cons]
                      exact h0

theorem getLast?_of_suffix {s l : List Char} (h : s <:+ l) (hs : s ≠ []) :
    l.getLast? = s.getLast? := by
  obtain ⟨w, hw⟩ := h
  rw [← hw]
  exact List.getLast?_append_of_ne_nil _ hs

theorem cleanLinesGo_cons_nonempty {l : List Char} (rest : List (List Char)) (ce : Nat)
    (h : (jsTrim l).isEmpty = false) :
    cleanLinesGo (l :: rest) ce = collapseWs (jsTrim l) :: cleanLinesGo rest 0 := by
  rw [cleanLinesGo]
  rw [if_neg (by simp [h])]

theorem mem_of_getLast?_eq {α : Type} {l : List α} {a : α} (h : l.getLast? = some a) :
    a ∈ l := by
  induction l with
  | nil => simp at h
  | cons c rest ih =>
      cases rest with
      | nil =>
          rw [List.getLast?_singleton] at h
          injection h with h
          simp [← h]
      | cons r rs =>
          rw [List.getLast?_cons_cons] at h
          exact List.mem_cons_of_mem c (ih h)

theorem exists_getLast?_of_ne_nil {α : Type} {l : List α} (h : l ≠ []) :
    ∃ a, l.getLast? = some a := by
  induction l with
  | nil => exact absurd rfl h
  | cons c rest ih =>
      cases rest with
      | nil => exact ⟨c, List.getLast?_singleton c⟩
      | cons r rs =>
          obtain ⟨a, ha⟩ := ih (by simp)
          refine ⟨a, ?_⟩
          rw [List.getLast?_cons_cons]
          exact ha

theorem isEmpty_eq_false_of_ne_nil {α : Type} {l : List α} (h : l ≠ []) :
    l.isEmpty = false := by
  cases l with
  | nil => exact absurd rfl h
  | cons a rest => rfl

theorem joinLines_ne_nil_of_head {l : List Char} (ls : List (List Char)) (h : l ≠ []) :
    joinLines (l :: ls) ≠ [] := by
  intro hcon
  have hh := joinLines_head? l ls h
  rw [hcon] at hh
  cases hx : l with
  | nil => exact h hx
  | cons d ds =>
      rw [hx] at hh
      simp at hh

theorem stripSpacesBefore_nil (p : Char) : stripSpacesBefore p [] = [] := by
  rw [stripSpacesBefore]

theorem joinLines_getLast_char (Y : List (List Char)) {yl : List Char}
    (hgl : Y.getLast? = some yl) (hyne : yl ≠ []) :
    (joinLines Y).getLast? = yl.getLast? := by
  have h1 : Y.reverse.head? = some yl := by
    rw [List.head?_reverse]
    exact hgl
  cases hYr : Y.reverse with
  | nil =>
      rw [hYr] at h1
      simp at h1
  | cons z zs =>
      rw [hYr, List.head?_cons] at h1
      injection h1 with h1
      have h2 : (joinLines Y).getLast? = (joinLines Y).reverse.head? := by
        rw [List.head?_reverse]
      rw [h2, joinLines_reverse, hYr, List.map_cons, h1]
      rw [joinLines_head? yl.reverse (zs.map List.reverse) (by simpa using hyne)]
      rw [List.head?_reverse]

/-- Structure of `cleanMessageText t` for tame input: either empty, or the
join of a bullet-fixed list of tidy lines, trimmed, whitespace-collapsed,
with no space-before-punctuation pairs left. -/
theorem cleanMessageText_tame_structure (t : List Char)
    (hstar : '*' ∉ t) (hmark : '❌' ∉ t)
    (hp1 : hasWsPair '.' t = false) (hp2 : hasWsPair '?' t = false)
    (hp3 : hasWsPair '!' t = false) (hp4 : hasWsPair ',' t = false) :
    cleanMessageText t = [] ∨
    ∃ X : List (List Char),
      cleanMessageText t = joinLines (fixBulletGo X false none) ∧
      cleanMessageText t ≠ [] ∧
      X ≠ [] ∧
      (∀ l ∈ X, TidyLine l) ∧
      hasEmptyPair X = false ∧
      (∀ c ∈ cleanMessageText t, c ∈ t ∨ c = ' ' ∨ c = '\n') ∧
      jsTrim (cleanMessageText t) = cleanMessageText t ∧
      hasPair ' ' '.' (cleanMessageText t) = false ∧
      hasPair ' ' '?' (cleanMessageText t) = false ∧
      hasPair ' ' '!' (cleanMessageText t) = false ∧
      hasPair ' ' ',' (cleanMessageText t) = false := by
  by_cases ht : t = []
  · left
    rw [ht]
    rfl
  · have hie : t.isEmpty = false := isEmpty_eq_false_of_ne_nil ht
    have hmark2 : '❌' ∉ jsTrim t := fun hc => hmark (jsTrim_subset t _ hc)
    have hstar2 : '*' ∉ jsTrim t := fun hc => hstar (jsTrim_subset t _ hc)
    have s1 : jsTrim (removeX1 t) = jsTrim t := by rw [removeX1_id hmark]
    have s2 : jsTrim (removeX2 (jsTrim t)) = jsTrim t := by
      rw [removeX2_id hmark2, jsTrim_idem]
    have s3 : replaceAsterisksWithQuotes (jsTrim t) = jsTrim t :=
      replaceAsterisksWithQuotes_id hstar2
    by_cases ht4e : parenStrip (jsTrim t) = []
    · left
      have s5 : splitLines ([] : List Char) = [([] : List Char)] := rfl
      have s6 : cleanLinesGo [([] : List Char)] 0 = [([] : List Char)] := rfl
      have s7 : joinLines [([] : List Char)] = ([] : List Char) := rfl
      have s8 : fixBulletListSpacing ([] : List Char) = ([] : List Char) := rfl
      have s9a := stripSpacesBefore_nil '.'
      have s9b := stripSpacesBefore_nil '?'
      have s9c := stripSpacesBefore_nil '!'
      have s9d := stripSpacesBefore_nil ','
      simp only [cleanMessageText, hie, Bool.false_eq_true, if_false, s1, s2, s3,
        ht4e, s5, s6, s7, s8, s9a, s9b, s9c, s9d, jsTrim_nil]
    · have ht4trim : jsTrim (parenStrip (jsTrim t)) = parenStrip (jsTrim t) :=
        parenStrip_trimmed (jsTrim_idem t)
      have hhead4 := (jsTrim_ends ht4trim).1
      have hlast4 := (jsTrim_ends ht4trim).2
      obtain ⟨c4, r4, hT⟩ : ∃ c r, parenStrip (jsTrim t) = c :: r := by
        cases hx : parenStrip (jsTrim t) with
        | nil => exact absurd hx ht4e
        | cons c r => exact ⟨c, r, rfl⟩
      have hc4 : isWs c4 = false := hhead4 c4 (by rw [hT]; rfl)
      have hc4n : c4 ≠ '\n' := by
        intro he
        rw [he] at hc4
        simp [isWs] at hc4
      obtain ⟨first, others, hS4⟩ : ∃ f o, splitLines r4 = f :: o := by
        cases hx : splitLines r4 with
        | nil => exact absurd hx (splitLines_ne_nil r4)
        | cons f o => exact ⟨f, o, rfl⟩
      have hsplit4 : splitLines (parenStrip (jsTrim t)) = (c4 :: first) :: others := by
        rw [hT, splitLines_cons, if_neg hc4n, hS4]
      have hl0t : jsTrim (c4 :: first) ≠ [] :=
        jsTrim_ne_nil_of_mem (List.mem_cons_self c4 first) hc4
      have hl0ie : (jsTrim (c4 :: first)).isEmpty = false := isEmpty_eq_false_of_ne_nil hl0t
      have hXcons : cleanLinesGo (splitLines (parenStrip (jsTrim t))) 0
          = collapseWs (jsTrim (c4 :: first)) :: cleanLinesGo others 0 := by
        rw [hsplit4]
        exact cleanLinesGo_cons_nonempty others 0 hl0ie
      have hc0ne : collapseWs (jsTrim (c4 :: first)) ≠ [] := by
        intro hc
        exact hl0t ((collapseWs_eq_nil_iff _).mp hc)
      have hXne : cleanLinesGo (splitLines (parenStrip (jsTrim t))) 0 ≠ [] := by
        rw [hXcons]
        simp
      have hXtidy : ∀ l ∈ cleanLinesGo (splitLines (parenStrip (jsTrim t))) 0, TidyLine l :=
        cleanLinesGo_tidy (splitLines_lines_no_newline _) 0
      have hXnp : hasEmptyPair (cleanLinesGo (splitLines (parenStrip (jsTrim t))) 0) = false :=
        cleanLinesGo_noEmptyPair _ 0
      obtain ⟨lr, hlr⟩ := exists_getLast?_of_ne_nil (splitLines_ne_nil (parenStrip (jsTrim t)))
      obtain ⟨hlrsuf, hlremp⟩ := splitLines_getLast_suffix _ lr hlr
      have hlrne : lr ≠ [] := by
        intro h0
        rcases hlremp h0 with h | h
        · exact ht4e h
        · have := hlast4 '\n' h
          simp [isWs] at this
      have hlrlast : (parenStrip (jsTrim t)).getLast? = lr.getLast? :=
        getLast?_of_suffix hlrsuf hlrne
      have hlrlast_nonws : ∀ c, lr.getLast? = some c → isWs c = false := by
        intro c hc
        exact hlast4 c (by rw [hlrlast]; exact hc)
      obtain ⟨lc, hlc⟩ := exists_getLast?_of_ne_nil hlrne
      have hlrtrim_ne : jsTrim lr ≠ [] :=
        jsTrim_ne_nil_of_mem (mem_of_getLast?_eq hlc) (hlrlast_nonws lc hlc)
      have hXlast := cleanLinesGo_getLast (splitLines (parenStrip (jsTrim t))) 0 lr hlr hlrtrim_ne
      have hxlne : collapseWs (jsTrim lr) ≠ [] := by
        intro hc
        exact hlrtrim_ne ((collapseWs_eq_nil_iff _).mp hc)
      obtain ⟨tl, htl⟩ := fixBulletGo_head (collapseWs (jsTrim (c4 :: first)))
        (cleanLinesGo others 0) false
      have hYcons : fixBulletGo (cleanLinesGo (splitLines (parenStrip (jsTrim t))) 0) false none
          = collapseWs (jsTrim (c4 :: first)) :: tl := by
        rw [hXcons]
        exact htl
      have hYlast : (fixBulletGo (cleanLinesGo (splitLines (parenStrip (jsTrim t))) 0)
          false none).getLast? = some (collapseWs (jsTrim lr)) := by
        rw [fixBulletGo_getLast _ false none hXne]
        exact hXlast.2
      have hjXne : joinLines (cleanLinesGo (splitLines (parenStrip (jsTrim t))) 0) ≠ [] := by
        rw [hXcons]
        exact joinLines_ne_nil_of_head _ hc0ne
      have hXnn : ∀ l ∈ cleanLinesGo (splitLines (parenStrip (jsTrim t))) 0, '\n' ∉ l :=
        fun l hl => (hXtidy l hl).2.2
      have s6 : fixBulletListSpacing
            (joinLines (cleanLinesGo (splitLines (parenStrip (jsTrim t))) 0))
          = joinLines (fixBulletGo (cleanLinesGo (splitLines (parenStrip (jsTrim t))) 0)
              false none) := by
        rw [fixBulletListSpacing, isEmpty_eq_false_of_ne_nil hjXne]
        rw [if_neg (by simp)]
        rw [splitLines_joinLines _ hXne hXnn]
      have hpairY : ∀ p, p ≠ '\n' → hasWsPair p t = false →
          hasPair ' ' p (joinLines (fixBulletGo
            (cleanLinesGo (splitLines (parenStrip (jsTrim t))) 0) false none)) = false := by
        intro p hpn hpt
        apply joinLines_noSpacePair hpn
        intro l hl
        rcases fixBulletGo_mem _ false none l hl with h0 | h0
        · rw [h0, hasPair_nil]
        · rcases cleanLinesGo_mem _ 0 l h0 with h1 | ⟨raw, hraw, hcol⟩
          · rw [h1, hasPair_nil]
          · rw [hcol]
            apply collapseWs_noSpacePair (jsTrim raw) (jsTrim raw).length (le_refl _)
            have hinf : jsTrim raw <:+: t :=
              (( jsTrim_infix raw).trans ( splitLines_infix _ raw hraw)).trans
                (( parenStrip_infix (jsTrim t)).trans ( jsTrim_infix t))
            exact hasWsPair_of_infix hinf hpt
      have s7a := stripSpacesBefore_id (hpairY '.' (by decide) hp1)
      have s7b := stripSpacesBefore_id (hpairY '?' (by decide) hp2)
      have s7c := stripSpacesBefore_id (hpairY '!' (by decide) hp3)
      have s7d := stripSpacesBefore_id (hpairY ',' (by decide) hp4)
      have hjhead : ∀ c, (joinLines (fixBulletGo
          (cleanLinesGo (splitLines (parenStrip (jsTrim t))) 0) false none)).head? = some c →
          isWs c = false := by
        intro c hc
        rw [hYcons] at hc
        rw [joinLines_head? _ tl hc0ne] at hc
        cases hjt : jsTrim (c4 :: first) with
        | nil => exact absurd hjt hl0t
        | cons d ds =>
            have hd : isWs d = false :=
              (jsTrim_ends (jsTrim_idem (c4 :: first))).1 d (by rw [hjt]; rfl)
            rw [hjt, collapseWs_cons_nonws ds hd, List.head?_cons] at hc
            injection hc with hc
            rw [← hc]
            exact hd
      have hjlast : ∀ c, (joinLines (fixBulletGo
          (cleanLinesGo (splitLines (parenStrip (jsTrim t))) 0) false none)).getLast? = some c →
          isWs c = false := by
        intro c hc
        rw [joinLines_getLast_char _ hYlast hxlne] at hc
        exact collapseWs_getLast_nonws (jsTrim lr) (jsTrim lr).length (le_refl _)
          (jsTrim_ends (jsTrim_idem lr)).2 c hc
      have s8 : jsTrim (joinLines (fixBulletGo
          (cleanLinesGo (splitLines (parenStrip (jsTrim t))) 0) false none))
          = joinLines (fixBulletGo (cleanLinesGo (splitLines (parenStrip (jsTrim t))) 0)
              false none) := jsTrim_fixed_of_ends hjhead hjlast
      have su : cleanMessageText t
          = joinLines (fixBulletGo (cleanLinesGo (splitLines (parenStrip (jsTrim t))) 0)
              false none) := by
        simp only [cleanMessageText, hie, Bool.false_eq_true, if_false, s1, s2, s3,
          s6, s7a, s7b, s7c, s7d, s8]
      have hune : cleanMessageText t ≠ [] := by
        rw [su, hYcons]
        exact joinLines_ne_nil_of_head _ hc0ne
      have hmem : ∀ c ∈ cleanMessageText t, c ∈ t ∨ c = ' ' ∨ c = '\n' := by
        intro c hc
        rw [su] at hc
        rcases joinLines_mem _ c hc with h0 | ⟨l, hl, hcl⟩
        · right; right
          exact h0
        · rcases fixBulletGo_mem _ false none l hl with h1 | h1
          · rw [h1] at hcl
            simp at hcl
          · rcases cleanLinesGo_mem _ 0 l h1 with h2 | ⟨raw, hraw, hcol⟩
            · rw [h2] at hcl
              simp at hcl
            · rw [hcol] at hcl
              rcases collapseWs_subset _ c hcl with h3 | h3
              · left
                have h4 : c ∈ raw := jsTrim_subset raw c h3
                have h5 : raw <:+: parenStrip (jsTrim t) := splitLines_infix _ raw hraw
                have h6 : parenStrip (jsTrim t) <:+: t :=
                  ( parenStrip_infix (jsTrim t)).trans ( jsTrim_infix t)
                exact (h5.trans h6).sublist.subset h4
              · right; left
                exact h3
      right
      refine ⟨cleanLinesGo (splitLines (parenStrip (jsTrim t))) 0,
        su, hune, hXne, hXtidy, hXnp, hmem, ?_, ?_, ?_, ?_, ?_⟩
      · rw [su]
        exact s8
      · rw [su]
        exact hpairY '.' (by decide) hp1
      · rw [su]
        exact hpairY '?' (by decide) hp2
      · rw [su]
        exact hpairY '!' (by decide) hp3
      · rw [su]
        exact hpairY ',' (by decide) hp4

/-- C10 (amended): `cleanMessageText` is not idempotent in general (see
`cleanMessageText_not_idempotent`: asterisk-quoting and parenthesis
unwrapping can act again on a second pass), but it is idempotent on tame
input: if the text contains no `*` and no `❌`, no `.` `?` `!` `,` is
preceded by whitespace, and the cleaned text is not wrapped in
parentheses, then a second application changes nothing. -/
theorem cleanMessageText_idempotent_on_tame (t : List Char)
    (hstar : '*' ∉ t) (hmark : '❌' ∉ t)
    (hp1 : hasWsPair '.' t = false) (hp2 : hasWsPair '?' t = false)
    (hp3 : hasWsPair '!' t = false) (hp4 : hasWsPair ',' t = false)
    (hparen : ((cleanMessageText t).head? = some '(' &&
      (cleanMessageText t).getLast? = some ')') = false) :
    cleanMessageText (cleanMessageText t) = cleanMessageText t := by
  rcases cleanMessageText_tame_structure t hstar hmark hp1 hp2 hp3 hp4 with h0 |
    ⟨X, hu, hune, hXne, hXtidy, hXnp, hmem, htrim, hq1, hq2, hq3, hq4⟩
  · rw [h0]
    rfl
  · obtain ⟨u, hu0⟩ : ∃ u, cleanMessageText t = u := ⟨_, rfl⟩
    rw [hu0] at hu hune hmem htrim hq1 hq2 hq3 hq4 hparen ⊢
    have hYnn : ∀ l ∈ fixBulletGo X false none, '\n' ∉ l := by
      intro l hl
      rcases fixBulletGo_mem X false none l hl with h | h
      · rw [h]
        simp
      · exact (hXtidy l h).2.2
    have hYtidy : ∀ l ∈ fixBulletGo X false none, jsTrim l = l ∧ collapseWs l = l := by
      intro l hl
      rcases fixBulletGo_mem X false none l hl with h | h
      · rw [h]
        exact ⟨jsTrim_nil, collapseWs_nil⟩
      · exact ⟨(hXtidy l h).1, (hXtidy l h).2.1⟩
    have hYnp : hasEmptyPair (fixBulletGo X false none) = false :=
      fixBulletGo_noEmptyPair X false none hXnp
    have hYne : fixBulletGo X false none ≠ [] := fixBulletGo_ne_nil hXne false none
    have hustar : '*' ∉ u := by
      intro hc
      rcases hmem _ hc with h | h | h
      · exact hstar h
      · exact absurd h (by decide)
      · exact absurd h (by decide)
    have humark : '❌' ∉ u := by
      intro hc
      rcases hmem _ hc with h | h | h
      · exact hmark h
      · exact absurd h (by decide)
      · exact absurd h (by decide)
    have hie : u.isEmpty = false := isEmpty_eq_false_of_ne_nil hune
    have e1 : removeX1 u = u := removeX1_id humark
    have e3 : removeX2 u = u := removeX2_id humark
    have e4 : replaceAsterisksWithQuotes u = u := replaceAsterisksWithQuotes_id hustar
    have e5 : parenStrip u = u := by
      rw [parenStrip]
      rw [if_neg (by rw [hparen]; exact Bool.false_ne_true)]
    have e6 : splitLines u = fixBulletGo X false none := by
      rw [hu]
      exact splitLines_joinLines _ hYne hYnn
    have e7 : cleanLinesGo (fixBulletGo X false none) 0 = fixBulletGo X false none :=
      cleanLinesGo_fixpoint _ hYtidy hYnp 0 (fun _ => rfl)
    have e8 : joinLines (fixBulletGo X false none) = u := hu.symm
    have e9 : fixBulletListSpacing u = u := by
      rw [fixBulletListSpacing]
      rw [if_neg (by rw [hie]; exact Bool.false_ne_true)]
      rw [e6, fixBulletGo_idem X false none, e8]
    have e10 := stripSpacesBefore_id hq1
    have e11 := stripSpacesBefore_id hq2
    have e12 := stripSpacesBefore_id hq3
    have e13 := stripSpacesBefore_id hq4
    simp only [cleanMessageText, hie, Bool.false_eq_true, if_false, e1, htrim, e3, e4,
      e5, e6, e7, e8, e9, e10, e11, e12, e13]

theorem cleanMessageText_idempotent_on_tame_witness :
    ('*' ∉ ['a', ' ', ' ', 'b']) ∧ ('❌' ∉ ['a', ' ', ' ', 'b']) ∧
    hasWsPair '.' ['a', ' ', ' ', 'b'] = false ∧
    hasWsPair '?' ['a', ' ', ' ', 'b'] = false ∧
    hasWsPair '!' ['a', ' ', ' ', 'b'] = false ∧
    hasWsPair ',' ['a', ' ', ' ', 'b'] = false ∧
    ((cleanMessageText ['a', ' ', ' ', 'b']).head? = some '(' &&
      (cleanMessageText ['a', ' ', ' ', 'b']).getLast? = some ')') = false ∧
    cleanMessageText (cleanMessageText ['a', ' ', ' ', 'b'])
      = cleanMessageText ['a', ' ', ' ', 'b'] :=
  ⟨by decide, by decide, by decide, by decide, by decide, by decide,
    by rw [clean_eval_doubleSpace]; decide,
    cleanMessageText_idempotent_on_tame ['a', ' ', ' ', 'b'] (by decide) (by decide)
      (by decide) (by decide) (by decide) (by decide)
      (by rw [clean_eval_doubleSpace]; decide)⟩

end Snowfriend
